import Mathlib

/-!
Finite-difference derivatives (`main.go`).

A shallow embedding of the numerical core of `main.go`: the difference quotient
`rateOfChange`, the halving convergence loop `derivativeAt`, its error-swallowing wrapper
`derivative`, the 3-D helpers `sumVect`, `scaleVect`, `lengthVect`, and the directional loop
`linearProjectionAt`.

The functions are embedded twice.

* Over exact arithmetic (`Mathcode.rateOfChange`, `Mathcode.derivativeAt`, ...): `float64`
  is read as a linearly ordered field `K` (the rationals, the reals, ...), with no rounding,
  no NaN and no infinities.  This reading is used for the statements that are about exact
  real arithmetic, for bounds and relations that do not depend on rounding, and for the
  demo inputs of `main`.  It does not predict which estimates the binary64 program computes:
  for `t * t` at `x = 100` the exact loop converges at the 18th body while the binary64
  loop, whose estimates carry rounding noise above the tolerance, ends with the error.
* Over uninterpreted operations (`Mathcode.Machine.rateOfChange`, ...): every `float64`
  operation, comparison and constant is a field of a record `FloatOps F`.  Statements about
  which estimate a loop returns, and when it fails, are made here, about the estimates as
  the loop computes them; they hold for every arithmetic that satisfies `StepLaws`, binary64
  included.  Over `exactOps` the two embeddings coincide.

Further conventions.

* A Go result `(float64, error)` is the pair `K × Option (DiffError K)`; `none` is `nil`.
* The two `for` loops have no counter in the source.  They are embedded with a fuel argument
  that bounds the number of loop *bodies* that may run; the loop guard itself is always
  tested, so fuel `0` still lets a loop whose guard is false fall through to the code after
  it.  A result `none` means "fuel exhausted", never a Go value.
* `math.Sqrt` is a library function and is taken as a parameter `sqrt : K → K`; the demo
  calls of `math.Sin`, `math.Exp` and `math.Pi` are read as `Real.sin`, `Real.exp`, `Real.pi`.
* Iteration and evaluation counts are stated on instrumented copies of the two loops, which
  return the list of steps at which a loop body ran and are proved to compute the same
  result.
-/

namespace Mathcode

/-- The two error values built in `main.go`: `errors.New("h cannot be zero")` and
`fmt.Errorf("function not differentiable at %f", x)`, the latter carrying the point (the
message prints it with six decimals; the embedding keeps the value that is printed). -/
inductive DiffError (K : Type) where
  | invalidStep : DiffError K
  | notDifferentiable (x : K) : DiffError K
  deriving DecidableEq, Repr

section Scalar

variable {K : Type} [LinearOrderedField K]

/-- Embedding of `rateOfChange` (main.go, lines 11-16). -/
def rateOfChange (f : K → K) (x h : K) : K × Option (DiffError K) :=
  if h = 0 then
    (0, some DiffError.invalidStep)
  else
    ((f (x + h) - f x) / h, none)

/-- The `for h := 0.1; h > 0.00000000001; h = h / 2` loop of `derivativeAt`
(main.go, lines 20-27), started in the state `(h, limit)`, followed by the final `return`.
The first argument bounds the number of loop bodies that may still run. -/
def derivativeAtLoop (f : K → K) (x : K) : Nat → K → K → Option (K × Option (DiffError K))
  | 0, h, _ =>
    if h > 0.00000000001 then none
    else some (0, some (DiffError.notDifferentiable x))
  | fuel + 1, h, limit =>
    if h > 0.00000000001 then
      let rate := (rateOfChange f x h).1
      if |limit - rate| < 0.000001 then
        some (rate, none)
      else
        derivativeAtLoop f x fuel (h / 2) rate
    else some (0, some (DiffError.notDifferentiable x))

/-- Embedding of `derivativeAt` (main.go, lines 18-28): `limit = 0`, `h = 0.1`. -/
def derivativeAt (f : K → K) (x : K) (fuel : Nat) : Option (K × Option (DiffError K)) :=
  derivativeAtLoop f x fuel 0.1 0

/-- Embedding of `derivative` (main.go, lines 30-35): `r, _ := derivativeAt(f, x); return r`. -/
def derivative (f : K → K) (fuel : Nat) (x : K) : Option K :=
  (derivativeAt f x fuel).map Prod.fst

end Scalar

section Vector

variable {K : Type} [LinearOrderedField K]

/-- The `vector` struct of main.go (lines 37-41). -/
structure vector (K : Type) where
  X : K
  Y : K
  Z : K
  deriving DecidableEq, Repr

/-- Embedding of `sumVect` (main.go, lines 47-53). -/
def sumVect (a b : vector K) : vector K :=
  { X := a.X + b.X, Y := a.Y + b.Y, Z := a.Z + b.Z }

/-- Embedding of `scaleVect` (main.go, lines 55-61). -/
def scaleVect (k : K) (a : vector K) : vector K :=
  { X := k * a.X, Y := k * a.Y, Z := k * a.Z }

/-- Embedding of `lengthVect` (main.go, lines 63-65); `sqrt` stands for `math.Sqrt`. -/
def lengthVect (sqrt : K → K) (a : vector K) : K :=
  sqrt (a.X * a.X + a.Y * a.Y + a.Z * a.Z)

/-- The `for k := 0.1; k*hLength > 0.00000000001; k = k / 2` loop of the closure returned
by `linearProjectionAt` (main.go, lines 71-78), started in the state `(k, limit)`, followed
by the final `return 0`. -/
def linearProjectionAtLoop (f : vector K → K) (x h : vector K) (hLength : K) :
    Nat → K → K → Option K
  | 0, k, _ =>
    if k * hLength > 0.00000000001 then none
    else some 0
  | fuel + 1, k, limit =>
    if k * hLength > 0.00000000001 then
      let projection := (f (sumVect x (scaleVect k h)) - f x) / k
      if |limit - projection| < 0.0000001 then
        some limit
      else
        linearProjectionAtLoop f x h hLength fuel (k / 2) projection
    else some 0

/-- Embedding of `linearProjectionAt` (main.go, lines 67-80). -/
def linearProjectionAt (sqrt : K → K) (f : vector K → K) (x : vector K) (fuel : Nat)
    (h : vector K) : Option K :=
  linearProjectionAtLoop f x h (lengthVect sqrt h) fuel 0.1 0

/-- Embedding of `derivative3D` (main.go, lines 84-88). -/
def derivative3D (sqrt : K → K) (f : vector K → K) (x : vector K) (fuel : Nat)
    (h : vector K) : Option K :=
  linearProjectionAt sqrt f x fuel h

end Vector

/-! ## The sequences the specification talks about -/

section SpecSequences

variable {K : Type} [LinearOrderedField K]

/-- The step `h_n = 0.1 / 2^n` (also the scale `k_n` of the 3-D loop). -/
def stepAt (n : Nat) : K := 0.1 / 2 ^ n

/-- The estimate `r_n = (f(x+h_n) - f(x)) / h_n`. -/
def quotAt (f : K → K) (x : K) (n : Nat) : K :=
  (f (x + stepAt n) - f x) / stepAt n

/-- The estimate before `r_n`: `r_{n-1}`, with `r_{-1} = 0`. -/
def prevQuotAt (f : K → K) (x : K) : Nat → K
  | 0 => 0
  | n + 1 => quotAt f x n

/-- The projection `p_n = (f(x + k_n*h) - f(x)) / k_n`. -/
def projAt (f : vector K → K) (x h : vector K) (n : Nat) : K :=
  (f (sumVect x (scaleVect (stepAt n) h)) - f x) / stepAt n

/-- The projection before `p_n`: `p_{n-1}`, with `p_{-1} = 0`. -/
def prevProjAt (f : vector K → K) (x h : vector K) : Nat → K
  | 0 => 0
  | n + 1 => projAt f x h n

end SpecSequences

/-! ## The demo function `beast` and fixed-point enclosures of its estimates

`beast` is the function of `main`.  Its estimates at `0` are the numbers `sin (10 * 2^n)`.
To bound them, `cos` and `sin` of `10 / 2^26` are enclosed from their Taylor polynomials and
the angle is doubled `26 + n` times in integer fixed-point arithmetic with an explicit error
radius. -/

section Beast

/-- The function `beast` of `main` (main.go, lines 92-97); `sin` stands for `math.Sin`. -/
def beast {K : Type} [LinearOrderedField K] (sin : K → K) (x : K) : K :=
  if x = 0 then 0 else x * sin (1 / x)

/-- Scale of the fixed-point enclosures. -/
def trigScale : Int := 10 ^ 30

/-- A triple `(c, s, e)` encloses the angle `θ` when `cos θ * 10^30` is within `e` of `c` and
`sin θ * 10^30` is within `e` of `s`. -/
def trigValid (θ : ℝ) (a : Int × Int × Int) : Prop :=
  |Real.cos θ * (trigScale : ℝ) - (a.1 : ℝ)| ≤ (a.2.2 : ℝ) ∧
    |Real.sin θ * (trigScale : ℝ) - (a.2.1 : ℝ)| ≤ (a.2.2 : ℝ)

/-- Angle doubling on enclosures: `cos 2θ = cos² θ - sin² θ`, `sin 2θ = 2 sin θ cos θ`, with
the error radius propagated and two units added for the rounded divisions. -/
def trigDouble (a : Int × Int × Int) : Int × Int × Int :=
  ((a.1 * a.1 - a.2.1 * a.2.1) / trigScale,
    (2 * (a.1 * a.2.1)) / trigScale,
    (2 * a.2.2 * ((a.1.natAbs : Int) + (a.2.1.natAbs : Int) + a.2.2)) / trigScale + 2)

/-- Enclosure of the angle `10 / 2^26`. -/
def trigInit : Int × Int × Int :=
  (999999999999988897769753748434, 149011611938476011046258, 27)

/-- Enclosure of the angle `10 * 2^n`. -/
def trigAt (n : Nat) : Int × Int × Int :=
  trigDouble^[26 + n] trigInit

/-- The check that the enclosures of `sin (10 * 2^(n-1))` (or of `0` when `n = 0`) and of
`sin (10 * 2^n)` are separated by more than `1e-6`. -/
def gapOK : Nat → Bool
  | 0 => decide ((trigAt 0).2.2 + 10 ^ 24 ≤ (((trigAt 0).2.1).natAbs : Int))
  | n + 1 =>
    decide ((trigAt n).2.2 + (trigAt (n + 1)).2.2 + 10 ^ 24
      ≤ ((((trigAt n).2.1 - (trigAt (n + 1)).2.1)).natAbs : Int))

end Beast

/-! ## Instrumented loops

The same two loops, returning next to their result the list of steps at which a loop body
ran.  They are used to count iterations and evaluations of `f`. -/

section Traced

variable {K : Type} [LinearOrderedField K]

/-- The arguments at which `rateOfChange f x h` applies `f`, in evaluation order: none when
`h = 0` (first branch), else `x + h` and `x`. -/
def rateOfChangeEvals (x h : K) : List K :=
  if h = 0 then [] else [x + h, x]

/-- The loop of `derivativeAt` (as `derivativeAtLoop`), returning also the list of the steps
`h` it passed to `rateOfChange`, one per loop body run. -/
def derivativeAtLoopTraced (f : K → K) (x : K) :
    Nat → K → K → Option (K × Option (DiffError K)) × List K
  | 0, h, _ =>
    if h > 0.00000000001 then (none, [])
    else (some (0, some (DiffError.notDifferentiable x)), [])
  | fuel + 1, h, limit =>
    if h > 0.00000000001 then
      let rate := (rateOfChange f x h).1
      if |limit - rate| < 0.000001 then
        (some (rate, none), [h])
      else
        let rest := derivativeAtLoopTraced f x fuel (h / 2) rate
        (rest.1, h :: rest.2)
    else (some (0, some (DiffError.notDifferentiable x)), [])

/-- Instrumented `derivativeAt`: `limit = 0`, `h = 0.1`. -/
def derivativeAtTraced (f : K → K) (x : K) (fuel : Nat) :
    Option (K × Option (DiffError K)) × List K :=
  derivativeAtLoopTraced f x fuel 0.1 0

/-- The loop of `linearProjectionAt` (as `linearProjectionAtLoop`), returning also the list
of the scales `k` at which a loop body ran. -/
def linearProjectionAtLoopTraced (f : vector K → K) (x h : vector K) (hLength : K) :
    Nat → K → K → Option K × List K
  | 0, k, _ =>
    if k * hLength > 0.00000000001 then (none, [])
    else (some 0, [])
  | fuel + 1, k, limit =>
    if k * hLength > 0.00000000001 then
      let projection := (f (sumVect x (scaleVect k h)) - f x) / k
      if |limit - projection| < 0.0000001 then
        (some limit, [k])
      else
        let rest := linearProjectionAtLoopTraced f x h hLength fuel (k / 2) projection
        (rest.1, k :: rest.2)
    else (some 0, [])

/-- Instrumented `linearProjectionAt`. -/
def linearProjectionAtTraced (sqrt : K → K) (f : vector K → K) (x : vector K) (fuel : Nat)
    (h : vector K) : Option K × List K :=
  linearProjectionAtLoopTraced f x h (lengthVect sqrt h) fuel 0.1 0

/-- The dot product `a.h` of the specification. -/
def dotVect (a h : vector K) : K :=
  a.X * h.X + a.Y * h.Y + a.Z * h.Z

/-- The linear scalar field `v ↦ a.X*v.X + a.Y*v.Y + a.Z*v.Z + c` of the specification. -/
def linearField (a : vector K) (c : K) (v : vector K) : K :=
  a.X * v.X + a.Y * v.Y + a.Z * v.Z + c

/-- The function `sphereF` of `main` (main.go, lines 111-113). -/
def sphereF (a : vector K) : K :=
  a.X * a.X + a.Y * a.Y + a.Z * a.Z

end Traced

/-! ## The loops over uninterpreted `float64` operations

The same functions once more, with every `float64` operation, comparison and constant of
`main.go` taken from a record `FloatOps F` that is not interpreted.  What is proved of these
definitions holds for every arithmetic, rounded or exact; `exactOps` is the exact one, and
for it these definitions coincide with the ones above. -/

section MachineDefs

/-- The `float64` operations, comparisons and constants that `main.go` uses. -/
structure FloatOps (F : Type) where
  /-- `a + b` -/
  add : F → F → F
  /-- `a - b` -/
  sub : F → F → F
  /-- `a * b` -/
  mul : F → F → F
  /-- `a / b` -/
  div : F → F → F
  /-- `math.Abs` -/
  abs : F → F
  /-- `math.Sqrt` -/
  sqrt : F → F
  /-- `a < b`; the source's `a > b` is `lt b a` -/
  lt : F → F → Bool
  /-- `a == b` -/
  eq : F → F → Bool
  /-- the constant `0` -/
  zero : F
  /-- the constant `2` -/
  two : F
  /-- the constant `0.1` -/
  tenth : F
  /-- the constant `0.00000000001` -/
  stepMin : F
  /-- the constant `0.000001` -/
  tolScalar : F
  /-- the constant `0.0000001` -/
  tolVector : F

/-- Exact arithmetic in a linearly ordered field, with a given square root. -/
def exactOps (K : Type) [LinearOrderedField K] (sqrt : K → K) : FloatOps K where
  add a b := a + b
  sub a b := a - b
  mul a b := a * b
  div a b := a / b
  abs a := |a|
  sqrt := sqrt
  lt a b := decide (a < b)
  eq a b := decide (a = b)
  zero := 0
  two := 2
  tenth := 0.1
  stepMin := 0.00000000001
  tolScalar := 0.000001
  tolVector := 0.0000001

namespace Machine

variable {F : Type}

/-- Embedding of `rateOfChange` (main.go, lines 11-16) over `FloatOps`. -/
def rateOfChange (ops : FloatOps F) (f : F → F) (x h : F) : F × Option (DiffError F) :=
  if ops.eq h ops.zero then
    (ops.zero, some DiffError.invalidStep)
  else
    (ops.div (ops.sub (f (ops.add x h)) (f x)) h, none)

/-- The loop of `derivativeAt` (main.go, lines 20-27) over `FloatOps`, started in the state
`(h, limit)`, followed by the final `return`; fuel bounds the loop bodies that may run. -/
def derivativeAtLoop (ops : FloatOps F) (f : F → F) (x : F) :
    Nat → F → F → Option (F × Option (DiffError F))
  | 0, h, _ =>
    if ops.lt ops.stepMin h then none
    else some (ops.zero, some (DiffError.notDifferentiable x))
  | fuel + 1, h, limit =>
    if ops.lt ops.stepMin h then
      let rate := (rateOfChange ops f x h).1
      if ops.lt (ops.abs (ops.sub limit rate)) ops.tolScalar then
        some (rate, none)
      else
        derivativeAtLoop ops f x fuel (ops.div h ops.two) rate
    else some (ops.zero, some (DiffError.notDifferentiable x))

/-- Embedding of `derivativeAt` (main.go, lines 18-28) over `FloatOps`. -/
def derivativeAt (ops : FloatOps F) (f : F → F) (x : F) (fuel : Nat) :
    Option (F × Option (DiffError F)) :=
  derivativeAtLoop ops f x fuel ops.tenth ops.zero

/-- Embedding of `sumVect` (main.go, lines 47-53) over `FloatOps`. -/
def sumVect (ops : FloatOps F) (a b : vector F) : vector F :=
  { X := ops.add a.X b.X, Y := ops.add a.Y b.Y, Z := ops.add a.Z b.Z }

/-- Embedding of `scaleVect` (main.go, lines 55-61) over `FloatOps`. -/
def scaleVect (ops : FloatOps F) (k : F) (a : vector F) : vector F :=
  { X := ops.mul k a.X, Y := ops.mul k a.Y, Z := ops.mul k a.Z }

/-- Embedding of `lengthVect` (main.go, lines 63-65) over `FloatOps`. -/
def lengthVect (ops : FloatOps F) (a : vector F) : F :=
  ops.sqrt (ops.add (ops.add (ops.mul a.X a.X) (ops.mul a.Y a.Y)) (ops.mul a.Z a.Z))

/-- The loop of the closure returned by `linearProjectionAt` (main.go, lines 71-78) over
`FloatOps`, started in the state `(k, limit)`, followed by the final `return 0`. -/
def linearProjectionAtLoop (ops : FloatOps F) (f : vector F → F) (x h : vector F)
    (hLength : F) : Nat → F → F → Option F
  | 0, k, _ =>
    if ops.lt ops.stepMin (ops.mul k hLength) then none
    else some ops.zero
  | fuel + 1, k, limit =>
    if ops.lt ops.stepMin (ops.mul k hLength) then
      let projection := ops.div (ops.sub (f (sumVect ops x (scaleVect ops k h))) (f x)) k
      if ops.lt (ops.abs (ops.sub limit projection)) ops.tolVector then
        some limit
      else
        linearProjectionAtLoop ops f x h hLength fuel (ops.div k ops.two) projection
    else some ops.zero

/-- Embedding of `linearProjectionAt` (main.go, lines 67-80) over `FloatOps`. -/
def linearProjectionAt (ops : FloatOps F) (f : vector F → F) (x : vector F) (fuel : Nat)
    (h : vector F) : Option F :=
  linearProjectionAtLoop ops f x h (lengthVect ops h) fuel ops.tenth ops.zero

/-- The step of iteration `n`, as the loops compute it: `0.1` halved `n` times.  In exact
arithmetic this is `0.1 / 2^n`. -/
def stepAt (ops : FloatOps F) (n : Nat) : F :=
  (fun h => ops.div h ops.two)^[n] ops.tenth

/-- The estimate `r_n = (f(x+h_n) - f(x)) / h_n`, computed with the operations of `ops`. -/
def quotAt (ops : FloatOps F) (f : F → F) (x : F) (n : Nat) : F :=
  ops.div (ops.sub (f (ops.add x (stepAt ops n))) (f x)) (stepAt ops n)

/-- The estimate before `r_n`: `r_{n-1}`, with `r_{-1} = 0`. -/
def prevQuotAt (ops : FloatOps F) (f : F → F) (x : F) : Nat → F
  | 0 => ops.zero
  | n + 1 => quotAt ops f x n

/-- The projection `p_n = (f(x + k_n*h) - f(x)) / k_n`, computed with the operations of
`ops`; the point `x + k_n*h` is written out by components. -/
def projAt (ops : FloatOps F) (f : vector F → F) (x h : vector F) (n : Nat) : F :=
  ops.div
    (ops.sub
      (f { X := ops.add x.X (ops.mul (stepAt ops n) h.X),
           Y := ops.add x.Y (ops.mul (stepAt ops n) h.Y),
           Z := ops.add x.Z (ops.mul (stepAt ops n) h.Z) })
      (f x))
    (stepAt ops n)

/-- The projection before `p_n`: `p_{n-1}`, with `p_{-1} = 0`. -/
def prevProjAt (ops : FloatOps F) (f : vector F → F) (x h : vector F) : Nat → F
  | 0 => ops.zero
  | n + 1 => projAt ops f x h n

/-- The three facts about the arithmetic that the statements below rely on.  They hold in
exact arithmetic (`exactOps_stepLaws`), and in IEEE binary64: the steps are nonnegative,
halving and multiplying by a fixed length are monotone under rounding, and a step above
`1e-11` is not `0`.

* `guard_mono`: a step that passes `h > 1e-11` comes after a step that passed it;
* `guard_ne_zero`: a step that passes `h > 1e-11` fails `h == 0`;
* `scaled_guard_mono`: the same as `guard_mono` for the guard `k * hLength > 1e-11`. -/
structure StepLaws (ops : FloatOps F) : Prop where
  guard_mono : ∀ n, ops.lt ops.stepMin (stepAt ops (n + 1)) = true →
    ops.lt ops.stepMin (stepAt ops n) = true
  guard_ne_zero : ∀ h, ops.lt ops.stepMin h = true → ops.eq h ops.zero = false
  scaled_guard_mono : ∀ (L : F) (n : Nat),
    ops.lt ops.stepMin (ops.mul (stepAt ops (n + 1)) L) = true →
      ops.lt ops.stepMin (ops.mul (stepAt ops n) L) = true

end Machine

end MachineDefs

/-! ## Arithmetic of the steps -/

section Steps

variable {K : Type} [LinearOrderedField K]

theorem stepAt_zero : (stepAt 0 : K) = 0.1 := by
  simp [stepAt]

theorem stepAt_succ (n : Nat) : (stepAt (n + 1) : K) = stepAt n / 2 := by
  simp only [stepAt, pow_succ]
  field_simp

theorem stepAt_pos (n : Nat) : (0 : K) < stepAt n := by
  unfold stepAt
  have h2 : (0 : K) < 2 ^ n := by positivity
  have h1 : (0 : K) < 0.1 := by norm_num
  exact div_pos h1 h2

theorem stepAt_ne_zero (n : Nat) : (stepAt n : K) ≠ 0 :=
  (stepAt_pos n).ne.symm

theorem stepAt_antitone {m n : Nat} (h : m ≤ n) : (stepAt n : K) ≤ stepAt m := by
  unfold stepAt
  have hm : (0 : K) < 2 ^ m := by positivity
  have hmn : (2 : K) ^ m ≤ 2 ^ n := pow_le_pow_right₀ (by norm_num) h
  exact div_le_div_of_nonneg_left (by norm_num) hm hmn

/-- The guard `h > 0.00000000001` holds at `h_n` exactly for `n = 0, ..., 33`. -/
theorem stepAt_gt_iff (n : Nat) : (stepAt n : K) > 0.00000000001 ↔ n < 34 := by
  constructor
  · intro h
    by_contra hn
    have h34 : (stepAt n : K) ≤ stepAt 34 := stepAt_antitone (Nat.le_of_not_lt hn)
    have : (stepAt 34 : K) ≤ 0.00000000001 := by
      unfold stepAt; norm_num
    exact absurd h (not_lt.mpr (h34.trans this))
  · intro h
    have h33 : (stepAt 33 : K) ≤ stepAt n := stepAt_antitone (Nat.le_of_lt_succ h)
    have : (stepAt 33 : K) > 0.00000000001 := by
      unfold stepAt; norm_num
    exact lt_of_lt_of_le this h33

end Steps

/-! ## The scalar loop -/

section ScalarLoop

variable {K : Type} [LinearOrderedField K]

/-- The value bound to `rate` in the loop body at step `h_n` is the estimate `r_n`: the
zero-step branch of `rateOfChange` is not taken. -/
theorem rateOfChange_stepAt (f : K → K) (x : K) (n : Nat) :
    (rateOfChange f x (stepAt n)).1 = quotAt f x n := by
  simp [rateOfChange, stepAt_ne_zero, quotAt]

/-- One pass through the loop body at step `h_n`, guard true. -/
theorem derivativeAtLoop_succ (f : K → K) (x : K) (fuel n : Nat) (limit : K)
    (hn : n < 34) :
    derivativeAtLoop f x (fuel + 1) (stepAt n) limit =
      if |limit - quotAt f x n| < 0.000001 then some (quotAt f x n, none)
      else derivativeAtLoop f x fuel (stepAt (n + 1)) (quotAt f x n) := by
  have hg : (stepAt n : K) > 0.00000000001 := (stepAt_gt_iff n).mpr hn
  rw [derivativeAtLoop, if_pos hg, rateOfChange_stepAt, stepAt_succ]

/-- Leaving the loop: guard false at step `h_n`. -/
theorem derivativeAtLoop_exit (f : K → K) (x : K) (fuel n : Nat) (limit : K)
    (hn : 34 ≤ n) :
    derivativeAtLoop f x fuel (stepAt n) limit =
      some (0, some (DiffError.notDifferentiable x)) := by
  have hg : ¬ (stepAt n : K) > 0.00000000001 := by
    rw [stepAt_gt_iff]; omega
  cases fuel <;> simp [derivativeAtLoop, hg]

/-- Convergence, from an arbitrary loop state `(h_m, r_{m-1})`: if the test first succeeds at
index `m + d`, the loop returns `r_{m+d}`. -/
theorem derivativeAtLoop_converges (f : K → K) (x : K) (d : Nat) :
    ∀ (m fuel : Nat), m + d < 34 → d < fuel →
      |prevQuotAt f x (m + d) - quotAt f x (m + d)| < 0.000001 →
      (∀ j, m ≤ j → j < m + d → ¬ |prevQuotAt f x j - quotAt f x j| < 0.000001) →
      derivativeAtLoop f x fuel (stepAt m) (prevQuotAt f x m) =
        some (quotAt f x (m + d), none) := by
  induction d with
  | zero =>
    intro m fuel hm hfuel hconv _
    obtain ⟨fuel, rfl⟩ : ∃ k, fuel = k + 1 := ⟨fuel - 1, by omega⟩
    rw [derivativeAtLoop_succ f x fuel m _ hm]
    exact if_pos hconv
  | succ d ih =>
    intro m fuel hm hfuel hconv hnot
    obtain ⟨fuel, rfl⟩ : ∃ k, fuel = k + 1 := ⟨fuel - 1, by omega⟩
    rw [derivativeAtLoop_succ f x fuel m _ (by omega), if_neg (hnot m le_rfl (by omega))]
    have key := ih (m + 1) fuel (by omega) (by omega)
      (by rw [show m + 1 + d = m + (d + 1) by omega]; exact hconv)
      (fun j hj1 hj2 => hnot j (by omega) (by omega))
    rw [show m + 1 + d = m + (d + 1) by omega] at key
    exact key

/-- Exhaustion, from an arbitrary loop state `(h_m, limit)`: if the test fails at every
remaining index, the loop falls through to the final `return`. -/
theorem derivativeAtLoop_exhausts (f : K → K) (x : K) (fuel : Nat) :
    ∀ (m : Nat) (limit : K), 34 ≤ m + fuel →
      (m < 34 → ¬ |limit - quotAt f x m| < 0.000001) →
      (∀ j, m < j → j < 34 → ¬ |prevQuotAt f x j - quotAt f x j| < 0.000001) →
      derivativeAtLoop f x fuel (stepAt m) limit =
        some (0, some (DiffError.notDifferentiable x)) := by
  induction fuel with
  | zero =>
    intro m limit hm _ _
    exact derivativeAtLoop_exit f x 0 m limit (by omega)
  | succ fuel ih =>
    intro m limit hm h0 hnot
    by_cases h34 : 34 ≤ m
    · exact derivativeAtLoop_exit f x (fuel + 1) m limit h34
    · have hlt : m < 34 := Nat.lt_of_not_le h34
      rw [derivativeAtLoop_succ f x fuel m _ hlt, if_neg (h0 hlt)]
      exact ih (m + 1) _ (by omega) (fun h => hnot (m + 1) (by omega) h)
        (fun j hj1 hj2 => hnot j (by omega) hj2)

theorem derivativeAt_eq_loop (f : K → K) (x : K) (fuel : Nat) :
    derivativeAt f x fuel = derivativeAtLoop f x fuel (stepAt 0) (prevQuotAt f x 0) := by
  rw [stepAt_zero]; rfl

/-- With fuel for the 34 possible loop bodies, `derivativeAt` either returns the first
estimate that passes the test, with a `nil` error, or returns the not-differentiable error
after the test failed at every index `0, ..., 33`. -/
theorem derivativeAt_cases (f : K → K) (x : K) (fuel : Nat) (hfuel : 34 ≤ fuel) :
    (∃ n, n < 34 ∧ |prevQuotAt f x n - quotAt f x n| < 0.000001 ∧
        (∀ m, m < n → ¬ |prevQuotAt f x m - quotAt f x m| < 0.000001) ∧
        derivativeAt f x fuel = some (quotAt f x n, none)) ∨
      ((∀ n, n < 34 → ¬ |prevQuotAt f x n - quotAt f x n| < 0.000001) ∧
        derivativeAt f x fuel = some (0, some (DiffError.notDifferentiable x))) := by
  by_cases hex : ∃ n, n < 34 ∧ |prevQuotAt f x n - quotAt f x n| < 0.000001
  · left
    refine ⟨Nat.find hex, (Nat.find_spec hex).1, (Nat.find_spec hex).2, ?_, ?_⟩
    · intro m hm hconv
      exact Nat.find_min hex hm ⟨lt_trans hm (Nat.find_spec hex).1, hconv⟩
    · have h34 := (Nat.find_spec hex).1
      have key := derivativeAtLoop_converges f x (Nat.find hex) 0 fuel
        (by omega) (by omega) (by simpa using (Nat.find_spec hex).2)
        (fun j _ hj hconv => Nat.find_min hex (by simpa using hj)
          ⟨by omega, hconv⟩)
      rw [derivativeAt_eq_loop, key]
      simp
  · right
    have hall : ∀ n, n < 34 → ¬ |prevQuotAt f x n - quotAt f x n| < 0.000001 :=
      fun n hn hconv => hex ⟨n, hn, hconv⟩
    refine ⟨hall, ?_⟩
    rw [derivativeAt_eq_loop]
    exact derivativeAtLoop_exhausts f x fuel 0 _ (by omega) (hall 0)
      (fun j _ hj => hall j hj)

/-- The estimates of a function whose samples `f (x + h_n)` lie on a line of slope `a`
through `(x, f x)` are all equal to `a`. -/
theorem quotAt_of_affine_samples (f : K → K) (x a : K)
    (haff : ∀ n, f (x + stepAt n) = f x + a * stepAt n) (n : Nat) :
    quotAt f x n = a := by
  unfold quotAt
  rw [haff n]
  field_simp [stepAt_ne_zero n]

/-- If the samples `f (x + h_n)` lie on a line of slope `a` through `(x, f x)`, the loop
returns `a` within two bodies: at once when `|a| < 1e-6`, else on the second estimate. -/
theorem derivativeAt_of_affine_samples (f : K → K) (x a : K) (fuel : Nat)
    (haff : ∀ n, f (x + stepAt n) = f x + a * stepAt n) (hfuel : 2 ≤ fuel) :
    derivativeAt f x fuel = some (a, none) := by
  have hq := quotAt_of_affine_samples f x a haff
  rw [derivativeAt_eq_loop]
  by_cases h0 : |prevQuotAt f x 0 - quotAt f x 0| < 0.000001
  · have key := derivativeAtLoop_converges f x 0 0 fuel (by omega) (by omega) h0
      (fun j hj1 hj2 => absurd hj2 (by omega))
    rw [key, Nat.add_zero, hq]
  · have h1 : |prevQuotAt f x (0 + 1) - quotAt f x (0 + 1)| < 0.000001 := by
      simp only [prevQuotAt, hq]
      norm_num
    have key := derivativeAtLoop_converges f x 1 0 fuel (by omega) (by omega) h1
      (fun j _ hj2 => by
        have hj : j = 0 := by omega
        subst hj
        exact h0)
    rw [key, hq]

end ScalarLoop

/-! ## The instrumented scalar loop -/

section ScalarTraced

variable {K : Type} [LinearOrderedField K]

/-- The instrumented loop computes the same result as the loop. -/
theorem derivativeAtLoopTraced_fst (f : K → K) (x : K) (fuel : Nat) :
    ∀ (h limit : K),
      (derivativeAtLoopTraced f x fuel h limit).1 = derivativeAtLoop f x fuel h limit := by
  induction fuel with
  | zero =>
    intro h limit
    simp only [derivativeAtLoopTraced, derivativeAtLoop]
    split <;> rfl
  | succ fuel ih =>
    intro h limit
    simp only [derivativeAtLoopTraced, derivativeAtLoop]
    split_ifs <;> simp [ih]

theorem derivativeAtTraced_fst (f : K → K) (x : K) (fuel : Nat) :
    (derivativeAtTraced f x fuel).1 = derivativeAt f x fuel :=
  derivativeAtLoopTraced_fst f x fuel _ _

/-- Every step passed to `rateOfChange` passed the loop guard first. -/
theorem derivativeAtLoopTraced_gt (f : K → K) (x : K) (fuel : Nat) :
    ∀ (h limit s : K), s ∈ (derivativeAtLoopTraced f x fuel h limit).2 →
      s > 0.00000000001 := by
  induction fuel with
  | zero =>
    intro h limit s hs
    simp only [derivativeAtLoopTraced] at hs
    split at hs <;> simp at hs
  | succ fuel ih =>
    intro h limit s hs
    simp only [derivativeAtLoopTraced] at hs
    split_ifs at hs with hg hc
    · simp only [List.mem_singleton] at hs
      rw [hs]; exact hg
    · simp only [List.mem_cons] at hs
      rcases hs with hs | hs
      · rw [hs]; exact hg
      · exact ih _ _ s hs
    · simp at hs

/-- The steps of the instrumented loop started at `h_m` are `h_m, h_{m+1}, ...`, at most as
many as the fuel, and none beyond `h_33`. -/
theorem derivativeAtLoopTraced_steps (f : K → K) (x : K) (fuel : Nat) :
    ∀ (m : Nat) (limit : K), ∃ c, c ≤ fuel ∧ (m ≤ 34 → m + c ≤ 34) ∧
      (derivativeAtLoopTraced f x fuel (stepAt m) limit).2
        = (List.range' m c).map stepAt := by
  induction fuel with
  | zero =>
    intro m limit
    refine ⟨0, le_refl 0, fun h => h, ?_⟩
    simp only [derivativeAtLoopTraced]
    split <;> rfl
  | succ fuel ih =>
    intro m limit
    by_cases hm : m < 34
    · have hg : (stepAt m : K) > 0.00000000001 := (stepAt_gt_iff m).mpr hm
      by_cases hc : |limit - (rateOfChange f x (stepAt m)).1| < 0.000001
      · refine ⟨1, by omega, fun _ => by omega, ?_⟩
        simp [derivativeAtLoopTraced, hg, hc]
      · obtain ⟨c, hc1, hc2, hc3⟩ := ih (m + 1) (rateOfChange f x (stepAt m)).1
        refine ⟨c + 1, by omega, fun _ => by omega, ?_⟩
        rw [stepAt_succ] at hc3
        simp [derivativeAtLoopTraced, hg, hc, hc3, List.range'_succ]
    · have hg : ¬ (stepAt m : K) > 0.00000000001 := by
        rw [stepAt_gt_iff]; exact hm
      refine ⟨0, by omega, fun h => h, ?_⟩
      simp [derivativeAtLoopTraced, hg]

/-- One `rateOfChange` call at a nonzero step evaluates `f` twice. -/
theorem rateOfChangeEvals_length (x h : K) (hh : h ≠ 0) :
    (rateOfChangeEvals x h).length = 2 := by
  simp [rateOfChangeEvals, hh]

/-- The loop on an affine function, instrumented: one body when `|a| < 1e-6`. -/
theorem derivativeAtTraced_affine_small (a b x : K) (fuel : Nat) (hfuel : 1 ≤ fuel)
    (ha : |a| < 0.000001) :
    derivativeAtTraced (fun t => a * t + b) x fuel = (some (a, none), [stepAt 0]) := by
  obtain ⟨fuel, rfl⟩ : ∃ k, fuel = k + 1 := ⟨fuel - 1, by omega⟩
  have hg : (0.1 : K) > 0.00000000001 := by norm_num
  have hr : (rateOfChange (fun t => a * t + b) x (0.1 : K)).1 = a := by
    simp only [rateOfChange]
    rw [if_neg (by norm_num)]
    field_simp
    ring
  have hc : |0 - a| < 0.000001 := by rwa [zero_sub, abs_neg]
  simp only [derivativeAtTraced, derivativeAtLoopTraced, if_pos hg, hr, if_pos hc,
    stepAt_zero]

/-- The loop on an affine function, instrumented: two bodies when `|a| ≥ 1e-6`, and fuel
for one body is not enough. -/
theorem derivativeAtTraced_affine_large (a b x : K) (fuel : Nat) (hfuel : 2 ≤ fuel)
    (ha : ¬ |a| < 0.000001) :
    derivativeAtTraced (fun t => a * t + b) x fuel
        = (some (a, none), [stepAt 0, stepAt 1]) ∧
      derivativeAt (fun t => a * t + b) x 1 = none := by
  obtain ⟨fuel, rfl⟩ : ∃ k, fuel = k + 2 := ⟨fuel - 2, by omega⟩
  have hg : (0.1 : K) > 0.00000000001 := by norm_num
  have hg1 : (0.1 / 2 : K) > 0.00000000001 := by norm_num
  have hr : (rateOfChange (fun t => a * t + b) x (0.1 : K)).1 = a := by
    simp only [rateOfChange]
    rw [if_neg (by norm_num)]
    field_simp
    ring
  have hr1 : (rateOfChange (fun t => a * t + b) x (0.1 / 2 : K)).1 = a := by
    simp only [rateOfChange]
    rw [if_neg (by norm_num)]
    field_simp
    ring
  have hc : ¬ |0 - a| < 0.000001 := by rwa [zero_sub, abs_neg]
  have hc1 : |a - a| < (0.000001 : K) := by
    rw [sub_self, abs_zero]; norm_num
  have e1 : (stepAt 1 : K) = 0.1 / 2 := by
    rw [stepAt_succ, stepAt_zero]
  constructor
  · simp only [derivativeAtTraced, derivativeAtLoopTraced, if_pos hg, hr, if_neg hc,
      if_pos hg1, hr1, if_pos hc1, stepAt_zero, e1]
  · simp only [derivativeAt, derivativeAtLoop, if_pos hg, hr, if_neg hc, if_pos hg1]

/-- A list of `rateOfChange` calls at nonzero steps evaluates `f` twice per call. -/
theorem rateOfChangeEvals_flatMap_length (x : K) (l : List K) (hl : ∀ h ∈ l, h ≠ 0) :
    (l.flatMap (rateOfChangeEvals x)).length = 2 * l.length := by
  induction l with
  | nil => simp
  | cons h t ih =>
    have hh : h ≠ 0 := hl h (List.mem_cons_self h t)
    have ht := ih (fun k hk => hl k (List.mem_cons_of_mem h hk))
    simp only [List.flatMap_cons, List.length_append, List.length_cons, ht,
      rateOfChangeEvals_length x h hh]
    ring

theorem derivativeAtTraced_eq_loop (f : K → K) (x : K) (fuel : Nat) :
    derivativeAtTraced f x fuel = derivativeAtLoopTraced f x fuel (stepAt 0) 0 := by
  rw [stepAt_zero]; rfl

end ScalarTraced

/-! ## Iterations of `derivativeAt` -/

section ScalarIterations

variable {K : Type} [LinearOrderedField K]

/-- C14: with fuel for 34 loop bodies `derivativeAt f x` always returns.  The steps at which
a body runs are `h_0, ..., h_{c-1}` for some `c ≤ 34`, so none is below `h_33 = 0.1 / 2^33`
(between `1.16e-11` and `1.17e-11`), and `f` is evaluated `2 * c ≤ 68` times. -/
theorem derivativeAt_at_most_34_iterations (f : K → K) (x : K) (fuel : Nat)
    (hfuel : 34 ≤ fuel) :
    (derivativeAtTraced f x fuel).1 = derivativeAt f x fuel ∧
      derivativeAt f x fuel ≠ none ∧
      (∃ c, c ≤ 34 ∧ (derivativeAtTraced f x fuel).2 = (List.range c).map stepAt ∧
        ((derivativeAtTraced f x fuel).2.flatMap (rateOfChangeEvals x)).length = 2 * c ∧
        2 * c ≤ 68) ∧
      (∀ h ∈ (derivativeAtTraced f x fuel).2, (stepAt 33 : K) ≤ h) ∧
      (stepAt 33 : K) = 0.1 / 2 ^ 33 ∧
      (0.0000000000116 : K) < stepAt 33 ∧ (stepAt 33 : K) < 0.0000000000117 := by
  obtain ⟨c, _, hc34, hsteps⟩ := derivativeAtLoopTraced_steps f x fuel 0 0
  have hc : c ≤ 34 := by have := hc34 (by omega); omega
  rw [← derivativeAtTraced_eq_loop, ← List.range_eq_range'] at hsteps
  refine ⟨derivativeAtTraced_fst f x fuel, ?_, ⟨c, hc, hsteps, ?_, by omega⟩, ?_, rfl, ?_, ?_⟩
  · rcases derivativeAt_cases f x fuel hfuel with ⟨n, _, _, _, hres⟩ | ⟨_, hres⟩ <;>
      rw [hres] <;> simp
  · have hne : ∀ h ∈ (derivativeAtTraced f x fuel).2, h ≠ 0 := fun h hh =>
      (lt_trans (by norm_num) (derivativeAtLoopTraced_gt f x fuel _ _ h hh)).ne.symm
    rw [rateOfChangeEvals_flatMap_length x _ hne, hsteps]
    simp
  · intro h hh
    rw [hsteps, List.mem_map] at hh
    obtain ⟨j, hj, rfl⟩ := hh
    rw [List.mem_range] at hj
    exact stepAt_antitone (by omega)
  · unfold stepAt; norm_num
  · unfold stepAt; norm_num

/-- Witness for C14 on the rationals: the squaring function at `3`, fuel `34`. -/
theorem derivativeAt_at_most_34_iterations_witness :
    derivativeAt (fun t : ℚ => t * t) 3 34 ≠ none ∧
      ∃ c, c ≤ 34 ∧
        (derivativeAtTraced (fun t : ℚ => t * t) 3 34).2 = (List.range c).map stepAt ∧
        ((derivativeAtTraced (fun t : ℚ => t * t) 3 34).2.flatMap
          (rateOfChangeEvals 3)).length = 2 * c ∧ 2 * c ≤ 68 :=
  ⟨(derivativeAt_at_most_34_iterations (fun t : ℚ => t * t) 3 34 (le_refl 34)).2.1,
    (derivativeAt_at_most_34_iterations (fun t : ℚ => t * t) 3 34 (le_refl 34)).2.2.1⟩

/-- C16: every step `h` that `derivativeAt f x` passes to `rateOfChange` satisfies
`h > 1e-11 > 0`, so that call returns `(f (x + h) - f x) / h` with a `nil` error: the
zero-step error is never the one discarded. -/
theorem derivativeAt_zero_step_unreachable (f : K → K) (x : K) (fuel : Nat) :
    (derivativeAtTraced f x fuel).1 = derivativeAt f x fuel ∧
      ∀ h ∈ (derivativeAtTraced f x fuel).2,
        h > 0.00000000001 ∧ (0.00000000001 : K) > 0 ∧
          rateOfChange f x h = ((f (x + h) - f x) / h, none) := by
  refine ⟨derivativeAtTraced_fst f x fuel, fun h hh => ?_⟩
  have hg : h > 0.00000000001 := derivativeAtLoopTraced_gt f x fuel _ _ h hh
  have h0 : (0.00000000001 : K) > 0 := by norm_num
  refine ⟨hg, h0, ?_⟩
  simp [rateOfChange, (lt_trans h0 hg).ne.symm]

/-- Witness for C16 on the rationals: the first call of the squaring function at `3`. -/
theorem derivativeAt_zero_step_unreachable_witness :
    (0.1 : ℚ) ∈ (derivativeAtTraced (fun t : ℚ => t * t) 3 1).2 ∧
      rateOfChange (fun t : ℚ => t * t) 3 0.1
        = (((fun t : ℚ => t * t) (3 + 0.1) - (fun t : ℚ => t * t) 3) / 0.1, none) :=
  ⟨by
      norm_num [derivativeAtTraced, derivativeAtLoopTraced, rateOfChange]
      split_ifs <;> simp,
    ((derivativeAt_zero_step_unreachable (fun t : ℚ => t * t) 3 1).2 0.1
      (by
        norm_num [derivativeAtTraced, derivativeAtLoopTraced, rateOfChange]
        split_ifs <;> simp)).2.2⟩

/-- C17: on an affine function `t ↦ a * t + b`, at every point, `derivativeAt` returns
exactly the slope `a` with a `nil` error; it does so in one loop body when `|a| < 1e-6`
and in two loop bodies (one is not enough) otherwise. -/
theorem derivativeAt_affine_exact (a b x : K) (fuel : Nat) (hfuel : 2 ≤ fuel) :
    derivativeAt (fun t => a * t + b) x fuel = some (a, none) ∧
      (|a| < 0.000001 →
        derivativeAtTraced (fun t => a * t + b) x fuel = (some (a, none), [stepAt 0]) ∧
          derivativeAt (fun t => a * t + b) x 1 = some (a, none)) ∧
      (¬ |a| < 0.000001 →
        derivativeAtTraced (fun t => a * t + b) x fuel
            = (some (a, none), [stepAt 0, stepAt 1]) ∧
          derivativeAt (fun t => a * t + b) x 1 = none) := by
  refine ⟨?_, fun ha => ⟨?_, ?_⟩, fun ha => ?_⟩
  · exact derivativeAt_of_affine_samples _ x a fuel (fun n => by ring) hfuel
  · exact derivativeAtTraced_affine_small a b x fuel (by omega) ha
  · rw [← derivativeAtTraced_fst, derivativeAtTraced_affine_small a b x 1 (le_refl 1) ha]
  · exact derivativeAtTraced_affine_large a b x fuel hfuel ha

/-- Witness for C17 on the rationals: `t ↦ 3 * t + 1` at `5`. -/
theorem derivativeAt_affine_exact_witness :
    derivativeAt (fun t : ℚ => 3 * t + 1) 5 34 = some (3, none) :=
  (derivativeAt_affine_exact (3 : ℚ) 1 5 34 (by decide)).1

end ScalarIterations

/-! ## False convergence against the initial limit -/

section FalseConvergence

/-- The first loop body returns at once when the first quotient is below the tolerance. -/
theorem derivativeAtTraced_first_small {K : Type} [LinearOrderedField K] (f : K → K) (x : K)
    (fuel : Nat) (hfuel : 1 ≤ fuel) (h0 : |(f (x + 0.1) - f x) / 0.1| < 0.000001) :
    derivativeAtTraced f x fuel = (some ((f (x + 0.1) - f x) / 0.1, none), [0.1]) := by
  obtain ⟨fuel, rfl⟩ : ∃ k, fuel = k + 1 := ⟨fuel - 1, by omega⟩
  have hg : (0.1 : K) > 0.00000000001 := by norm_num
  have hr : (rateOfChange f x (0.1 : K)).1 = (f (x + 0.1) - f x) / 0.1 := by
    simp only [rateOfChange]
    rw [if_neg (by norm_num)]
  have hc : |0 - (f (x + 0.1) - f x) / 0.1| < 0.000001 := by rwa [zero_sub, abs_neg]
  simp only [derivativeAtTraced, derivativeAtLoopTraced, if_pos hg, hr, if_pos hc]

/-- C18: on the reals, whenever `|(f (x + 0.1) - f x) / 0.1| < 1e-6`, `derivativeAt f x`
returns that first quotient after a single loop body, whatever `f` is elsewhere.  For
`f t = t^2` at `x = -0.05` it returns `0`, while the derivative there is `-0.1`, more than
`1e-5` away. -/
theorem derivativeAt_false_convergence :
    (∀ (f : ℝ → ℝ) (x : ℝ) (fuel : Nat), 1 ≤ fuel →
        |(f (x + 0.1) - f x) / 0.1| < 0.000001 →
        derivativeAt f x fuel = some ((f (x + 0.1) - f x) / 0.1, none) ∧
          (derivativeAtTraced f x fuel).2 = [0.1]) ∧
      HasDerivAt (fun t : ℝ => t ^ 2) (-0.1) (-0.05) ∧
      derivativeAt (fun t : ℝ => t ^ 2) (-0.05) 34 = some (0, none) ∧
      |(0 : ℝ) - (-0.1)| > 0.00001 := by
  have gen : ∀ (f : ℝ → ℝ) (x : ℝ) (fuel : Nat), 1 ≤ fuel →
      |(f (x + 0.1) - f x) / 0.1| < 0.000001 →
      derivativeAt f x fuel = some ((f (x + 0.1) - f x) / 0.1, none) ∧
        (derivativeAtTraced f x fuel).2 = [0.1] := by
    intro f x fuel hfuel h0
    have key := derivativeAtTraced_first_small f x fuel hfuel h0
    rw [← derivativeAtTraced_fst, key]
    exact ⟨rfl, rfl⟩
  refine ⟨gen, ?_, ?_, ?_⟩
  · convert hasDerivAt_pow 2 (-0.05 : ℝ) using 1
    norm_num
  · have h := (gen (fun t : ℝ => t ^ 2) (-0.05) 34 (by decide) (by norm_num)).1
    rw [h]
    norm_num
  · have e : |(0 : ℝ) - (-0.1)| = 0.1 := by
      rw [zero_sub, neg_neg]
      exact abs_of_pos (by norm_num)
    rw [e]
    norm_num

end FalseConvergence

/-! ## `derivativeAt` and `derivative` -/

section DerivativeAt

variable {K : Type} [LinearOrderedField K]

/-- C5: with fuel for the 34 possible loop bodies, `derivative f` returns a plain value at
every `x`: the value of `derivativeAt f x` when that succeeds, and `0` when `derivativeAt`
returns the not-differentiable error. -/
theorem derivative_swallows_error (f : K → K) (x : K) (fuel : Nat) (hfuel : 34 ≤ fuel) :
    ∃ r, derivative f fuel x = some r ∧
      (derivativeAt f x fuel = some (r, none) ∨
        (r = 0 ∧ derivativeAt f x fuel = some (0, some (DiffError.notDifferentiable x)))) := by
  rcases derivativeAt_cases f x fuel hfuel with ⟨n, _, _, _, hres⟩ | ⟨_, hres⟩
  · exact ⟨quotAt f x n, by simp [derivative, hres], Or.inl hres⟩
  · exact ⟨0, by simp [derivative, hres], Or.inr ⟨rfl, hres⟩⟩

/-- Witness for C5 on the rationals: the squaring function at `3`, fuel `34`. -/
theorem derivative_swallows_error_witness :
    (34 ≤ 34) ∧
      ∃ r, derivative (fun t : ℚ => t * t) 34 3 = some r ∧
        (derivativeAt (fun t : ℚ => t * t) 3 34 = some (r, none) ∨
          (r = 0 ∧ derivativeAt (fun t : ℚ => t * t) 3 34
            = some (0, some (DiffError.notDifferentiable 3)))) :=
  ⟨le_refl 34, derivative_swallows_error (fun t : ℚ => t * t) 3 34 (le_refl 34)⟩

/-- C9, as the code behaves, over exact arithmetic: a kink at `x` does not make
`derivativeAt` fail, since only points to the right of `x` are sampled.  If
`f (x + t) = f x + a * t` for `0 < t ≤ 0.1`, whatever `f` does to the left of `x`, then in
exact arithmetic `derivativeAt f x` succeeds and returns the right-hand slope `a` (fuel for
two loop bodies suffices). -/
theorem derivativeAt_right_affine (f : K → K) (x a : K) (fuel : Nat)
    (haff : ∀ t, 0 < t → t ≤ 0.1 → f (x + t) = f x + a * t) (hfuel : 2 ≤ fuel) :
    derivativeAt f x fuel = some (a, none) := by
  refine derivativeAt_of_affine_samples f x a fuel (fun n => ?_) hfuel
  refine haff (stepAt n) (stepAt_pos n) ?_
  have h := stepAt_antitone (K := K) (Nat.zero_le n)
  rwa [stepAt_zero] at h

/-- Witness for the amended C9 in exact rational arithmetic: the absolute value at `0`,
slope `1`. -/
theorem derivativeAt_right_affine_witness :
    derivativeAt (fun t : ℚ => |t|) 0 34 = some (1, none) :=
  derivativeAt_right_affine (fun t : ℚ => |t|) 0 1 34
    (fun t ht _ => by simp [abs_of_pos ht]) (by decide)

/-- Counterexample to C9 as stated: the absolute value on the reals has a genuine kink at
`0` (left derivative `-1`, right derivative `1`), yet `derivativeAt` succeeds there and
returns `1`; it does not return the not-differentiable error. -/
theorem derivativeAt_abs_zero_succeeds :
    HasDerivWithinAt (fun t : ℝ => |t|) (-1) (Set.Iic 0) 0 ∧
      HasDerivWithinAt (fun t : ℝ => |t|) 1 (Set.Ici 0) 0 ∧
      derivativeAt (fun t : ℝ => |t|) 0 34 = some (1, none) ∧
      derivativeAt (fun t : ℝ => |t|) 0 34 ≠
        some (0, some (DiffError.notDifferentiable 0)) := by
  have hres : derivativeAt (fun t : ℝ => |t|) 0 34 = some (1, none) :=
    derivativeAt_of_affine_samples (fun t : ℝ => |t|) 0 1 34
      (fun n => by simp [abs_of_pos (stepAt_pos (K := ℝ) n)]) (by decide)
  refine ⟨?_, ?_, hres, ?_⟩
  · exact ((hasDerivWithinAt_id (0 : ℝ) (Set.Iic 0)).neg).congr
      (fun t ht => abs_of_nonpos ht) (by simp)
  · exact (hasDerivWithinAt_id (0 : ℝ) (Set.Ici 0)).congr
      (fun t ht => abs_of_nonneg ht) (by simp)
  · rw [hres]
    simp

end DerivativeAt


/-! ## The 3-D loop -/

section VectorLoop

variable {K : Type} [LinearOrderedField K]

/-- The guard `k * hLength > 0.00000000001` can only hold for a positive length. -/
theorem length_pos_of_guard (L : K) (n : Nat) (h : (stepAt n : K) * L > 0.00000000001) :
    0 < L := by
  have hpos : (0 : K) < stepAt n * L := lt_trans (by norm_num) h
  exact (pos_iff_pos_of_mul_pos hpos).mp (stepAt_pos n)

/-- The guard of the 3-D loop, once true at `k_n`, was true at every earlier `k_m`. -/
theorem guard_of_le (L : K) {m n : Nat} (hmn : m ≤ n)
    (h : (stepAt n : K) * L > 0.00000000001) : (stepAt m : K) * L > 0.00000000001 := by
  have hL : 0 < L := length_pos_of_guard L n h
  exact lt_of_lt_of_le h (mul_le_mul_of_nonneg_right (stepAt_antitone hmn) hL.le)

/-- One pass through the loop body at scale `k_n`, guard true. -/
theorem linearProjectionAtLoop_succ (f : vector K → K) (x h : vector K) (L : K)
    (fuel n : Nat) (limit : K) (hg : (stepAt n : K) * L > 0.00000000001) :
    linearProjectionAtLoop f x h L (fuel + 1) (stepAt n) limit =
      if |limit - projAt f x h n| < 0.0000001 then some limit
      else linearProjectionAtLoop f x h L fuel (stepAt (n + 1)) (projAt f x h n) := by
  rw [linearProjectionAtLoop, if_pos hg, stepAt_succ]
  rfl

/-- Leaving the loop: guard false at the current scale. -/
theorem linearProjectionAtLoop_exit (f : vector K → K) (x h : vector K) (L : K)
    (fuel : Nat) (k limit : K) (hg : ¬ k * L > 0.00000000001) :
    linearProjectionAtLoop f x h L fuel k limit = some 0 := by
  cases fuel <;> simp only [linearProjectionAtLoop, if_neg hg]

/-- Convergence, from an arbitrary loop state `(k_m, p_{m-1})`: if the test first succeeds
at index `m + d`, the loop returns the old limit `p_{m+d-1}`. -/
theorem linearProjectionAtLoop_converges (f : vector K → K) (x h : vector K) (L : K)
    (d : Nat) :
    ∀ (m fuel : Nat), (stepAt (m + d) : K) * L > 0.00000000001 → d < fuel →
      |prevProjAt f x h (m + d) - projAt f x h (m + d)| < 0.0000001 →
      (∀ j, m ≤ j → j < m + d → ¬ |prevProjAt f x h j - projAt f x h j| < 0.0000001) →
      linearProjectionAtLoop f x h L fuel (stepAt m) (prevProjAt f x h m) =
        some (prevProjAt f x h (m + d)) := by
  induction d with
  | zero =>
    intro m fuel hg hfuel hconv _
    obtain ⟨fuel, rfl⟩ : ∃ k, fuel = k + 1 := ⟨fuel - 1, by omega⟩
    rw [linearProjectionAtLoop_succ f x h L fuel m _ hg]
    exact if_pos hconv
  | succ d ih =>
    intro m fuel hg hfuel hconv hnot
    obtain ⟨fuel, rfl⟩ : ∃ k, fuel = k + 1 := ⟨fuel - 1, by omega⟩
    rw [linearProjectionAtLoop_succ f x h L fuel m _ (guard_of_le L (by omega) hg),
      if_neg (hnot m le_rfl (by omega))]
    have key := ih (m + 1) fuel
      (by rw [show m + 1 + d = m + (d + 1) by omega]; exact hg) (by omega)
      (by rw [show m + 1 + d = m + (d + 1) by omega]; exact hconv)
      (fun j hj1 hj2 => hnot j (by omega) (by omega))
    rw [show m + 1 + d = m + (d + 1) by omega] at key
    exact key

/-- Exhaustion, from an arbitrary loop state `(k_m, limit)`: if the guard is false at index
`m + fuel` and the test fails wherever the guard holds, the loop falls through to
`return 0`. -/
theorem linearProjectionAtLoop_exhausts (f : vector K → K) (x h : vector K) (L : K)
    (fuel : Nat) :
    ∀ (m : Nat) (limit : K), ¬ (stepAt (m + fuel) : K) * L > 0.00000000001 →
      ((stepAt m : K) * L > 0.00000000001 → ¬ |limit - projAt f x h m| < 0.0000001) →
      (∀ j, m < j → (stepAt j : K) * L > 0.00000000001 →
        ¬ |prevProjAt f x h j - projAt f x h j| < 0.0000001) →
      linearProjectionAtLoop f x h L fuel (stepAt m) limit = some 0 := by
  induction fuel with
  | zero =>
    intro m limit hg _ _
    exact linearProjectionAtLoop_exit f x h L 0 _ limit hg
  | succ fuel ih =>
    intro m limit hN h0 hnot
    by_cases hg : (stepAt m : K) * L > 0.00000000001
    · rw [linearProjectionAtLoop_succ f x h L fuel m _ hg, if_neg (h0 hg)]
      exact ih (m + 1) _ (by rw [show m + 1 + fuel = m + (fuel + 1) by omega]; exact hN)
        (fun hg1 => hnot (m + 1) (by omega) hg1)
        (fun j hj1 hj2 => hnot j (by omega) hj2)
    · exact linearProjectionAtLoop_exit f x h L (fuel + 1) _ limit hg

theorem linearProjectionAt_eq_loop (sqrt : K → K) (f : vector K → K) (x h : vector K)
    (fuel : Nat) :
    linearProjectionAt sqrt f x fuel h =
      linearProjectionAtLoop f x h (lengthVect sqrt h) fuel (stepAt 0) (prevProjAt f x h 0) := by
  rw [stepAt_zero]; rfl

/-- In an Archimedean field the guard of the 3-D loop is false from some index on. -/
theorem exists_guard_false [Archimedean K] (L : K) :
    ∃ N, ∀ n, N ≤ n → ¬ (stepAt n : K) * L > 0.00000000001 := by
  obtain ⟨N, hN⟩ := pow_unbounded_of_one_lt (0.1 * L / 0.00000000001 : K)
    (by norm_num : (1 : K) < 2)
  refine ⟨N, fun n hn hg => ?_⟩
  have hN' : (stepAt N : K) * L > 0.00000000001 := guard_of_le L hn hg
  have h2 : (0 : K) < 2 ^ N := by positivity
  have e : (stepAt N : K) * L = 0.1 * L / 2 ^ N := by
    unfold stepAt; ring
  rw [e, gt_iff_lt, lt_div_iff₀ h2] at hN'
  rw [div_lt_iff₀ (by norm_num : (0 : K) < 0.00000000001)] at hN
  linarith

/-- The guard at `k_n`, as a bound on `2^n`. -/
theorem guard_iff_pow_lt (L : K) (n : Nat) :
    (stepAt n : K) * L > 0.00000000001 ↔ (2 : K) ^ n < L * 10000000000 := by
  have h2 : (0 : K) < 2 ^ n := by positivity
  have e : (stepAt n : K) * L = 0.1 * L / 2 ^ n := by
    unfold stepAt; ring
  rw [e, gt_iff_lt, lt_div_iff₀ h2]
  constructor <;> intro h <;> linarith

/-- The instrumented 3-D loop computes the same result as the loop. -/
theorem linearProjectionAtLoopTraced_fst (f : vector K → K) (x h : vector K) (L : K)
    (fuel : Nat) :
    ∀ (k limit : K),
      (linearProjectionAtLoopTraced f x h L fuel k limit).1
        = linearProjectionAtLoop f x h L fuel k limit := by
  induction fuel with
  | zero =>
    intro k limit
    simp only [linearProjectionAtLoopTraced, linearProjectionAtLoop]
    split <;> rfl
  | succ fuel ih =>
    intro k limit
    simp only [linearProjectionAtLoopTraced, linearProjectionAtLoop]
    split_ifs <;> simp [ih]

theorem linearProjectionAtTraced_fst (sqrt : K → K) (f : vector K → K) (x h : vector K)
    (fuel : Nat) :
    (linearProjectionAtTraced sqrt f x fuel h).1 = linearProjectionAt sqrt f x fuel h :=
  linearProjectionAtLoopTraced_fst f x h _ fuel _ _

theorem linearProjectionAtTraced_eq_loop (sqrt : K → K) (f : vector K → K) (x h : vector K)
    (fuel : Nat) :
    linearProjectionAtTraced sqrt f x fuel h =
      linearProjectionAtLoopTraced f x h (lengthVect sqrt h) fuel (stepAt 0) 0 := by
  rw [stepAt_zero]; rfl

/-- The scales of the instrumented 3-D loop started at `k_m` are `k_m, k_{m+1}, ...`, at
most as many as the fuel, and the guard holds at each of them. -/
theorem linearProjectionAtLoopTraced_steps (f : vector K → K) (x h : vector K) (L : K)
    (fuel : Nat) :
    ∀ (m : Nat) (limit : K), ∃ c, c ≤ fuel ∧
      (∀ j, m ≤ j → j < m + c → (stepAt j : K) * L > 0.00000000001) ∧
      (linearProjectionAtLoopTraced f x h L fuel (stepAt m) limit).2
        = (List.range' m c).map stepAt := by
  induction fuel with
  | zero =>
    intro m limit
    refine ⟨0, le_refl 0, fun j h1 h2 => absurd h2 (by omega), ?_⟩
    simp only [linearProjectionAtLoopTraced]
    split <;> rfl
  | succ fuel ih =>
    intro m limit
    by_cases hg : (stepAt m : K) * L > 0.00000000001
    · by_cases hc : |limit - (f (sumVect x (scaleVect (stepAt m) h)) - f x) / stepAt m|
          < 0.0000001
      · refine ⟨1, by omega, fun j h1 h2 => ?_, ?_⟩
        · have hj : j = m := by omega
          rw [hj]; exact hg
        · simp [linearProjectionAtLoopTraced, hg, hc]
      · obtain ⟨c, hc1, hc2, hc3⟩ :=
          ih (m + 1) ((f (sumVect x (scaleVect (stepAt m) h)) - f x) / stepAt m)
        refine ⟨c + 1, by omega, fun j h1 h2 => ?_, ?_⟩
        · rcases Nat.eq_or_lt_of_le h1 with hj | hj
          · rw [← hj]; exact hg
          · exact hc2 j (by omega) (by omega)
        · rw [stepAt_succ] at hc3
          simp [linearProjectionAtLoopTraced, hg, hc, hc3, List.range'_succ]
    · refine ⟨0, by omega, fun j h1 h2 => absurd h2 (by omega), ?_⟩
      simp [linearProjectionAtLoopTraced, hg]

/-- The 3-D loop returns as soon as the fuel reaches an index where the guard is false. -/
theorem linearProjectionAtLoop_ne_none (f : vector K → K) (x h : vector K) (L : K)
    (fuel : Nat) :
    ∀ (m : Nat) (limit : K), ¬ (stepAt (m + fuel) : K) * L > 0.00000000001 →
      linearProjectionAtLoop f x h L fuel (stepAt m) limit ≠ none := by
  induction fuel with
  | zero =>
    intro m limit hg
    rw [Nat.add_zero] at hg
    rw [linearProjectionAtLoop_exit f x h L 0 _ limit hg]
    simp
  | succ fuel ih =>
    intro m limit hN
    by_cases hg : (stepAt m : K) * L > 0.00000000001
    · rw [linearProjectionAtLoop_succ f x h L fuel m _ hg]
      split_ifs
      · simp
      · exact ih (m + 1) _ (by rw [show m + 1 + fuel = m + (fuel + 1) by omega]; exact hN)
    · rw [linearProjectionAtLoop_exit f x h L (fuel + 1) _ limit hg]
      simp

/-- A run of the instrumented 3-D loop in which the guard holds and the test fails at the
first `fuel` indices: all the fuel is used, one body per index. -/
theorem linearProjectionAtLoopTraced_run (f : vector K → K) (x h : vector K) (L : K)
    (fuel : Nat) :
    ∀ (m : Nat) (limit : K),
      (∀ j, m ≤ j → j < m + fuel → (stepAt j : K) * L > 0.00000000001) →
      (0 < fuel → ¬ |limit - projAt f x h m| < 0.0000001) →
      (∀ j, m < j → j < m + fuel →
        ¬ |prevProjAt f x h j - projAt f x h j| < 0.0000001) →
      linearProjectionAtLoopTraced f x h L fuel (stepAt m) limit =
        (if (stepAt (m + fuel) : K) * L > 0.00000000001 then none else some 0,
          (List.range' m fuel).map stepAt) := by
  induction fuel with
  | zero =>
    intro m limit _ _ _
    simp only [linearProjectionAtLoopTraced, Nat.add_zero]
    split <;> simp
  | succ fuel ih =>
    intro m limit hg h0 hnot
    have hgm := hg m le_rfl (by omega)
    have hc : ¬ |limit - (f (sumVect x (scaleVect (stepAt m) h)) - f x) / stepAt m|
        < 0.0000001 := h0 (by omega)
    have key := ih (m + 1) (projAt f x h m) (fun j h1 h2 => hg j (by omega) (by omega))
      (fun hfuel => hnot (m + 1) (by omega) (by omega))
      (fun j h1 h2 => hnot j (by omega) (by omega))
    rw [stepAt_succ, show m + 1 + fuel = m + (fuel + 1) by omega] at key
    simp only [linearProjectionAtLoopTraced, if_pos hgm, if_neg hc, List.range'_succ,
      List.map_cons]
    unfold projAt at key
    rw [key]

end VectorLoop

/-! ## `linearProjectionAt` -/

section LinearProjectionAt

variable {K : Type} [LinearOrderedField K]

/-- C8: when `math.Sqrt 0 = 0`, `linearProjectionAt f x` at the zero direction returns `0`
with no loop body run (fuel `0` suffices): `lengthVect` of the zero vector is `0`, the guard
fails on its first test, and the result is the same for all `f`, `x`. -/
theorem linearProjectionAt_zero_direction (sqrt : K → K) (hsqrt : sqrt 0 = 0)
    (f g : vector K → K) (x y : vector K) (fuel : Nat) :
    lengthVect sqrt ⟨0, 0, 0⟩ = 0 ∧
      ¬ ((0.1 : K) * lengthVect sqrt ⟨0, 0, 0⟩ > 0.00000000001) ∧
      linearProjectionAt sqrt f x 0 ⟨0, 0, 0⟩ = some 0 ∧
      linearProjectionAt sqrt f x fuel ⟨0, 0, 0⟩ = some 0 ∧
      linearProjectionAt sqrt f x fuel ⟨0, 0, 0⟩ =
        linearProjectionAt sqrt g y fuel ⟨0, 0, 0⟩ := by
  have hlen : lengthVect sqrt (⟨0, 0, 0⟩ : vector K) = 0 := by
    simp [lengthVect, hsqrt]
  have hg : ¬ ((0.1 : K) * lengthVect sqrt ⟨0, 0, 0⟩ > 0.00000000001) := by
    rw [hlen]; norm_num
  have hres : ∀ (f : vector K → K) (x : vector K) (fuel : Nat),
      linearProjectionAt sqrt f x fuel ⟨0, 0, 0⟩ = some 0 :=
    fun f x fuel => linearProjectionAtLoop_exit f x _ _ fuel _ _ hg
  exact ⟨hlen, hg, hres f x 0, hres f x fuel, by rw [hres f x fuel, hres g y fuel]⟩

/-- Witness for C8 on the rationals, with the rational square root. -/
theorem linearProjectionAt_zero_direction_witness :
    (Rat.sqrt 0 = 0) ∧
      linearProjectionAt Rat.sqrt (fun v : vector ℚ => v.X * v.X) ⟨1, 2, 3⟩ 0 ⟨0, 0, 0⟩
        = some 0 :=
  ⟨by decide,
    (linearProjectionAt_zero_direction Rat.sqrt (by decide) (fun v : vector ℚ => v.X * v.X)
      (fun v : vector ℚ => v.Y) ⟨1, 2, 3⟩ ⟨0, 0, 0⟩ 5).2.2.1⟩

end LinearProjectionAt

/-! ## The loops over uninterpreted operations -/

namespace Machine

section ExactInstance

variable {K : Type} [LinearOrderedField K]

/-- Over `exactOps` the scalar loop is the exact scalar loop. -/
theorem derivativeAtLoop_exactOps (sqrt : K → K) (f : K → K) (x : K) (fuel : Nat) :
    ∀ (h limit : K),
      derivativeAtLoop (exactOps K sqrt) f x fuel h limit
        = Mathcode.derivativeAtLoop f x fuel h limit := by
  induction fuel with
  | zero =>
    intro h limit
    simp [derivativeAtLoop, Mathcode.derivativeAtLoop, exactOps]
  | succ fuel ih =>
    intro h limit
    simp [derivativeAtLoop, Mathcode.derivativeAtLoop, exactOps, rateOfChange,
      Mathcode.rateOfChange, ← ih]

/-- Over `exactOps` `derivativeAt` is the exact `derivativeAt`. -/
theorem derivativeAt_exactOps (sqrt : K → K) (f : K → K) (x : K) (fuel : Nat) :
    derivativeAt (exactOps K sqrt) f x fuel = Mathcode.derivativeAt f x fuel :=
  derivativeAtLoop_exactOps sqrt f x fuel _ _

/-- Over `exactOps` the 3-D loop is the exact 3-D loop. -/
theorem linearProjectionAtLoop_exactOps (sqrt : K → K) (f : vector K → K) (x h : vector K)
    (L : K) (fuel : Nat) :
    ∀ (k limit : K),
      linearProjectionAtLoop (exactOps K sqrt) f x h L fuel k limit
        = Mathcode.linearProjectionAtLoop f x h L fuel k limit := by
  induction fuel with
  | zero =>
    intro k limit
    simp [linearProjectionAtLoop, Mathcode.linearProjectionAtLoop, exactOps]
  | succ fuel ih =>
    intro k limit
    simp [linearProjectionAtLoop, Mathcode.linearProjectionAtLoop, exactOps, sumVect,
      scaleVect, Mathcode.sumVect, Mathcode.scaleVect, ← ih]

/-- Over `exactOps` `linearProjectionAt` is the exact `linearProjectionAt`. -/
theorem linearProjectionAt_exactOps (sqrt : K → K) (f : vector K → K) (x h : vector K)
    (fuel : Nat) :
    linearProjectionAt (exactOps K sqrt) f x fuel h
      = Mathcode.linearProjectionAt sqrt f x fuel h :=
  linearProjectionAtLoop_exactOps sqrt f x h _ fuel _ _

/-- Over `exactOps` the computed step is `0.1 / 2^n`. -/
theorem stepAt_exactOps (sqrt : K → K) (n : Nat) :
    stepAt (exactOps K sqrt) n = Mathcode.stepAt n := by
  induction n with
  | zero => simp [stepAt, Mathcode.stepAt, exactOps]
  | succ n ih =>
    unfold stepAt at ih ⊢
    rw [Function.iterate_succ_apply', ih, Mathcode.stepAt_succ]
    rfl

theorem exactOps_guard (sqrt : K → K) (h : K) :
    (exactOps K sqrt).lt (exactOps K sqrt).stepMin h = decide (0.00000000001 < h) :=
  rfl

theorem exactOps_scaledGuard (sqrt : K → K) (k L : K) :
    (exactOps K sqrt).lt (exactOps K sqrt).stepMin ((exactOps K sqrt).mul k L)
      = decide (0.00000000001 < k * L) :=
  rfl

theorem exactOps_scalarTest (sqrt : K → K) (a b : K) :
    (exactOps K sqrt).lt ((exactOps K sqrt).abs ((exactOps K sqrt).sub a b))
      (exactOps K sqrt).tolScalar = decide (|a - b| < 0.000001) :=
  rfl

theorem exactOps_vectorTest (sqrt : K → K) (a b : K) :
    (exactOps K sqrt).lt ((exactOps K sqrt).abs ((exactOps K sqrt).sub a b))
      (exactOps K sqrt).tolVector = decide (|a - b| < 0.0000001) :=
  rfl

theorem exactOps_zero (sqrt : K → K) : (exactOps K sqrt).zero = 0 :=
  rfl

/-- Over `exactOps` the computed estimate is the exact estimate. -/
theorem quotAt_exactOps (sqrt : K → K) (f : K → K) (x : K) (n : Nat) :
    quotAt (exactOps K sqrt) f x n = Mathcode.quotAt f x n := by
  unfold quotAt
  rw [stepAt_exactOps]
  rfl

theorem prevQuotAt_exactOps (sqrt : K → K) (f : K → K) (x : K) (n : Nat) :
    prevQuotAt (exactOps K sqrt) f x n = Mathcode.prevQuotAt f x n := by
  cases n with
  | zero => rfl
  | succ n => exact quotAt_exactOps sqrt f x n

/-- Over `exactOps` the computed projection is the exact projection. -/
theorem projAt_exactOps (sqrt : K → K) (f : vector K → K) (x h : vector K) (n : Nat) :
    projAt (exactOps K sqrt) f x h n = Mathcode.projAt f x h n := by
  unfold projAt
  rw [stepAt_exactOps]
  rfl

theorem prevProjAt_exactOps (sqrt : K → K) (f : vector K → K) (x h : vector K) (n : Nat) :
    prevProjAt (exactOps K sqrt) f x h n = Mathcode.prevProjAt f x h n := by
  cases n with
  | zero => rfl
  | succ n => exact projAt_exactOps sqrt f x h n

theorem lengthVect_exactOps (sqrt : K → K) (a : vector K) :
    lengthVect (exactOps K sqrt) a = Mathcode.lengthVect sqrt a :=
  rfl

/-- Exact arithmetic satisfies the three step laws. -/
theorem exactOps_stepLaws (sqrt : K → K) : StepLaws (exactOps K sqrt) := by
  refine ⟨fun n h => ?_, fun h hh => ?_, fun L n h => ?_⟩
  · rw [stepAt_exactOps] at h ⊢
    simp only [exactOps, decide_eq_true_eq] at h ⊢
    exact lt_of_lt_of_le h (Mathcode.stepAt_antitone (Nat.le_succ n))
  · simp only [exactOps, decide_eq_true_eq, decide_eq_false_iff_not] at hh ⊢
    exact (lt_trans (by norm_num) hh).ne.symm
  · rw [stepAt_exactOps] at h ⊢
    simp only [exactOps, decide_eq_true_eq] at h ⊢
    exact Mathcode.guard_of_le L (Nat.le_succ n) h

end ExactInstance

section MachineLoops

variable {F : Type}

theorem stepAt_halve (ops : FloatOps F) (n : Nat) :
    stepAt ops (n + 1) = ops.div (stepAt ops n) ops.two := by
  unfold stepAt
  rw [Function.iterate_succ_apply']

/-- Under the step laws the scalar guard, once true at index `n`, was true before. -/
theorem scalarGuard_of_le (ops : FloatOps F) (laws : StepLaws ops) {m n : Nat} (hmn : m ≤ n)
    (h : ops.lt ops.stepMin (stepAt ops n) = true) :
    ops.lt ops.stepMin (stepAt ops m) = true := by
  induction n with
  | zero =>
    have hm : m = 0 := by omega
    rw [hm]; exact h
  | succ n ih =>
    rcases Nat.eq_or_lt_of_le hmn with hm | hm
    · rw [hm]; exact h
    · exact ih (by omega) (laws.guard_mono n h)

/-- Under the step laws the scaled guard, once true at index `n`, was true before. -/
theorem scaledGuard_of_le (ops : FloatOps F) (laws : StepLaws ops) (L : F) {m n : Nat}
    (hmn : m ≤ n) (h : ops.lt ops.stepMin (ops.mul (stepAt ops n) L) = true) :
    ops.lt ops.stepMin (ops.mul (stepAt ops m) L) = true := by
  induction n with
  | zero =>
    have hm : m = 0 := by omega
    rw [hm]; exact h
  | succ n ih =>
    rcases Nat.eq_or_lt_of_le hmn with hm | hm
    · rw [hm]; exact h
    · exact ih (by omega) (laws.scaled_guard_mono L n h)

/-- One pass through the body of the scalar loop at step `h_n`, guard true: the value bound
to `rate` is the computed estimate `r_n`. -/
theorem scalarLoop_step (ops : FloatOps F) (laws : StepLaws ops) (f : F → F) (x : F)
    (fuel n : Nat) (limit : F) (hg : ops.lt ops.stepMin (stepAt ops n) = true) :
    derivativeAtLoop ops f x (fuel + 1) (stepAt ops n) limit =
      if ops.lt (ops.abs (ops.sub limit (quotAt ops f x n))) ops.tolScalar = true then
        some (quotAt ops f x n, none)
      else derivativeAtLoop ops f x fuel (stepAt ops (n + 1)) (quotAt ops f x n) := by
  have hz : ops.eq (stepAt ops n) ops.zero = false := laws.guard_ne_zero _ hg
  have hr : (rateOfChange ops f x (stepAt ops n)).1 = quotAt ops f x n := by
    simp [rateOfChange, hz, quotAt]
  rw [derivativeAtLoop, if_pos hg, stepAt_halve]
  simp only [hr]

/-- Leaving the scalar loop: guard false at the current step. -/
theorem scalarLoop_exit (ops : FloatOps F) (f : F → F) (x : F) (fuel : Nat) (h limit : F)
    (hg : ops.lt ops.stepMin h = false) :
    derivativeAtLoop ops f x fuel h limit
      = some (ops.zero, some (DiffError.notDifferentiable x)) := by
  cases fuel <;> simp [derivativeAtLoop, hg]

/-- Convergence of the scalar loop from the state `(h_m, r_{m-1})`: if the guard holds up to
index `m + d` and the test first succeeds there, the loop returns the new estimate. -/
theorem scalarLoop_converges (ops : FloatOps F) (laws : StepLaws ops) (f : F → F) (x : F)
    (d : Nat) :
    ∀ (m fuel : Nat), ops.lt ops.stepMin (stepAt ops (m + d)) = true → d < fuel →
      ops.lt (ops.abs (ops.sub (prevQuotAt ops f x (m + d)) (quotAt ops f x (m + d))))
        ops.tolScalar = true →
      (∀ j, m ≤ j → j < m + d →
        ¬ ops.lt (ops.abs (ops.sub (prevQuotAt ops f x j) (quotAt ops f x j)))
          ops.tolScalar = true) →
      derivativeAtLoop ops f x fuel (stepAt ops m) (prevQuotAt ops f x m)
        = some (quotAt ops f x (m + d), none) := by
  induction d with
  | zero =>
    intro m fuel hg hfuel hconv _
    obtain ⟨fuel, rfl⟩ : ∃ k, fuel = k + 1 := ⟨fuel - 1, by omega⟩
    rw [scalarLoop_step ops laws f x fuel m _ hg]
    exact if_pos hconv
  | succ d ih =>
    intro m fuel hg hfuel hconv hnot
    obtain ⟨fuel, rfl⟩ : ∃ k, fuel = k + 1 := ⟨fuel - 1, by omega⟩
    rw [scalarLoop_step ops laws f x fuel m _ (scalarGuard_of_le ops laws (by omega) hg),
      if_neg (hnot m le_rfl (by omega))]
    have key := ih (m + 1) fuel
      (by rw [show m + 1 + d = m + (d + 1) by omega]; exact hg) (by omega)
      (by rw [show m + 1 + d = m + (d + 1) by omega]; exact hconv)
      (fun j hj1 hj2 => hnot j (by omega) (by omega))
    rw [show m + 1 + d = m + (d + 1) by omega] at key
    exact key

/-- Exhaustion of the scalar loop from the state `(h_m, limit)`: if the guard is false at
index `m + fuel` and the test fails wherever the guard holds, the loop falls through to the
final `return`. -/
theorem scalarLoop_exhausts (ops : FloatOps F) (laws : StepLaws ops) (f : F → F) (x : F)
    (fuel : Nat) :
    ∀ (m : Nat) (limit : F), ops.lt ops.stepMin (stepAt ops (m + fuel)) = false →
      (ops.lt ops.stepMin (stepAt ops m) = true →
        ¬ ops.lt (ops.abs (ops.sub limit (quotAt ops f x m))) ops.tolScalar = true) →
      (∀ j, m < j → ops.lt ops.stepMin (stepAt ops j) = true →
        ¬ ops.lt (ops.abs (ops.sub (prevQuotAt ops f x j) (quotAt ops f x j)))
          ops.tolScalar = true) →
      derivativeAtLoop ops f x fuel (stepAt ops m) limit
        = some (ops.zero, some (DiffError.notDifferentiable x)) := by
  induction fuel with
  | zero =>
    intro m limit hg _ _
    exact scalarLoop_exit ops f x 0 _ limit hg
  | succ fuel ih =>
    intro m limit hN h0 hnot
    by_cases hg : ops.lt ops.stepMin (stepAt ops m) = true
    · rw [scalarLoop_step ops laws f x fuel m _ hg, if_neg (h0 hg)]
      exact ih (m + 1) _ (by rw [show m + 1 + fuel = m + (fuel + 1) by omega]; exact hN)
        (fun hg1 => hnot (m + 1) (by omega) hg1)
        (fun j hj1 hj2 => hnot j (by omega) hj2)
    · exact scalarLoop_exit ops f x (fuel + 1) _ limit (by simpa using hg)

/-- One pass through the body of the 3-D loop at scale `k_n`, guard true: the value bound
to `projection` is the computed projection `p_n`. -/
theorem vectorLoop_step (ops : FloatOps F) (f : vector F → F) (x h : vector F) (L : F)
    (fuel n : Nat) (limit : F)
    (hg : ops.lt ops.stepMin (ops.mul (stepAt ops n) L) = true) :
    linearProjectionAtLoop ops f x h L (fuel + 1) (stepAt ops n) limit =
      if ops.lt (ops.abs (ops.sub limit (projAt ops f x h n))) ops.tolVector = true then
        some limit
      else linearProjectionAtLoop ops f x h L fuel (stepAt ops (n + 1))
        (projAt ops f x h n) := by
  rw [linearProjectionAtLoop, if_pos hg, stepAt_halve]
  rfl

/-- Leaving the 3-D loop: guard false at the current scale. -/
theorem vectorLoop_exit (ops : FloatOps F) (f : vector F → F) (x h : vector F) (L : F)
    (fuel : Nat) (k limit : F) (hg : ops.lt ops.stepMin (ops.mul k L) = false) :
    linearProjectionAtLoop ops f x h L fuel k limit = some ops.zero := by
  cases fuel <;> simp [linearProjectionAtLoop, hg]

/-- Convergence of the 3-D loop from the state `(k_m, p_{m-1})`: if the guard holds up to
index `m + d` and the test first succeeds there, the loop returns the old limit. -/
theorem vectorLoop_converges (ops : FloatOps F) (laws : StepLaws ops) (f : vector F → F)
    (x h : vector F) (L : F) (d : Nat) :
    ∀ (m fuel : Nat), ops.lt ops.stepMin (ops.mul (stepAt ops (m + d)) L) = true →
      d < fuel →
      ops.lt (ops.abs (ops.sub (prevProjAt ops f x h (m + d)) (projAt ops f x h (m + d))))
        ops.tolVector = true →
      (∀ j, m ≤ j → j < m + d →
        ¬ ops.lt (ops.abs (ops.sub (prevProjAt ops f x h j) (projAt ops f x h j)))
          ops.tolVector = true) →
      linearProjectionAtLoop ops f x h L fuel (stepAt ops m) (prevProjAt ops f x h m)
        = some (prevProjAt ops f x h (m + d)) := by
  induction d with
  | zero =>
    intro m fuel hg hfuel hconv _
    obtain ⟨fuel, rfl⟩ : ∃ k, fuel = k + 1 := ⟨fuel - 1, by omega⟩
    rw [vectorLoop_step ops f x h L fuel m _ hg]
    exact if_pos hconv
  | succ d ih =>
    intro m fuel hg hfuel hconv hnot
    obtain ⟨fuel, rfl⟩ : ∃ k, fuel = k + 1 := ⟨fuel - 1, by omega⟩
    rw [vectorLoop_step ops f x h L fuel m _ (scaledGuard_of_le ops laws L (by omega) hg),
      if_neg (hnot m le_rfl (by omega))]
    have key := ih (m + 1) fuel
      (by rw [show m + 1 + d = m + (d + 1) by omega]; exact hg) (by omega)
      (by rw [show m + 1 + d = m + (d + 1) by omega]; exact hconv)
      (fun j hj1 hj2 => hnot j (by omega) (by omega))
    rw [show m + 1 + d = m + (d + 1) by omega] at key
    exact key

/-- Exhaustion of the 3-D loop from the state `(k_m, limit)`: if the guard is false at index
`m + fuel` and the test fails wherever the guard holds, the loop falls through to
`return 0`. -/
theorem vectorLoop_exhausts (ops : FloatOps F) (f : vector F → F) (x h : vector F) (L : F)
    (fuel : Nat) :
    ∀ (m : Nat) (limit : F), ops.lt ops.stepMin (ops.mul (stepAt ops (m + fuel)) L) = false →
      (ops.lt ops.stepMin (ops.mul (stepAt ops m) L) = true →
        ¬ ops.lt (ops.abs (ops.sub limit (projAt ops f x h m))) ops.tolVector = true) →
      (∀ j, m < j → ops.lt ops.stepMin (ops.mul (stepAt ops j) L) = true →
        ¬ ops.lt (ops.abs (ops.sub (prevProjAt ops f x h j) (projAt ops f x h j)))
          ops.tolVector = true) →
      linearProjectionAtLoop ops f x h L fuel (stepAt ops m) limit = some ops.zero := by
  induction fuel with
  | zero =>
    intro m limit hg _ _
    exact vectorLoop_exit ops f x h L 0 _ limit hg
  | succ fuel ih =>
    intro m limit hN h0 hnot
    by_cases hg : ops.lt ops.stepMin (ops.mul (stepAt ops m) L) = true
    · rw [vectorLoop_step ops f x h L fuel m _ hg, if_neg (h0 hg)]
      exact ih (m + 1) _ (by rw [show m + 1 + fuel = m + (fuel + 1) by omega]; exact hN)
        (fun hg1 => hnot (m + 1) (by omega) hg1)
        (fun j hj1 hj2 => hnot j (by omega) hj2)
    · exact vectorLoop_exit ops f x h L (fuel + 1) _ limit (by simpa using hg)

end MachineLoops

section MachineClaims

variable {F : Type}

/-- With the guard false at index `N` and fuel for `N` loop bodies, `derivativeAt` either
returns the first computed estimate that passes the test, with a `nil` error, or returns the
not-differentiable error after the test failed wherever the guard held. -/
theorem derivativeAt_dichotomy (ops : FloatOps F) (laws : StepLaws ops) (f : F → F) (x : F)
    (N fuel : Nat) (hN : ops.lt ops.stepMin (stepAt ops N) = false) (hfuel : N ≤ fuel) :
    (∃ n, ops.lt ops.stepMin (stepAt ops n) = true ∧
        ops.lt (ops.abs (ops.sub (prevQuotAt ops f x n) (quotAt ops f x n)))
          ops.tolScalar = true ∧
        derivativeAt ops f x fuel = some (quotAt ops f x n, none)) ∨
      ((∀ n, ops.lt ops.stepMin (stepAt ops n) = true →
          ops.lt (ops.abs (ops.sub (prevQuotAt ops f x n) (quotAt ops f x n)))
            ops.tolScalar = false) ∧
        derivativeAt ops f x fuel
          = some (ops.zero, some (DiffError.notDifferentiable x))) := by
  have hlt : ∀ n, ops.lt ops.stepMin (stepAt ops n) = true → n < N := by
    intro n hn
    by_contra hle
    have := scalarGuard_of_le ops laws (Nat.le_of_not_lt hle) hn
    rw [hN] at this
    exact Bool.false_ne_true this
  by_cases hex : ∃ n, ops.lt ops.stepMin (stepAt ops n) = true ∧
      ops.lt (ops.abs (ops.sub (prevQuotAt ops f x n) (quotAt ops f x n)))
        ops.tolScalar = true
  · left
    obtain ⟨hg, hc⟩ := Nat.find_spec hex
    refine ⟨Nat.find hex, hg, hc, ?_⟩
    have key := scalarLoop_converges ops laws f x (Nat.find hex) 0 fuel
      (by simpa using hg) (by have := hlt _ hg; omega) (by simpa using hc)
      (fun j _ hj hconv => Nat.find_min hex (by simpa using hj)
        ⟨scalarGuard_of_le ops laws (by omega) hg, hconv⟩)
    rw [Nat.zero_add] at key
    exact key
  · right
    have hall : ∀ n, ops.lt ops.stepMin (stepAt ops n) = true →
        ops.lt (ops.abs (ops.sub (prevQuotAt ops f x n) (quotAt ops f x n)))
          ops.tolScalar = false := by
      intro n hn
      by_contra hc
      exact hex ⟨n, hn, by simpa using hc⟩
    refine ⟨hall, ?_⟩
    have hgf : ops.lt ops.stepMin (stepAt ops (0 + fuel)) = false := by
      rw [Nat.zero_add]
      by_contra hg
      have := hlt fuel (by simpa using hg)
      omega
    exact scalarLoop_exhausts ops laws f x fuel 0 _ hgf
      (fun hg hc => Bool.false_ne_true ((hall 0 hg).symm.trans hc))
      (fun j _ hg hc => by rw [hall j hg] at hc; exact Bool.false_ne_true hc)

/-- C3: for every arithmetic satisfying the step laws (exact or binary64), with `h_n` the
step of iteration `n`, `r_n = (f (x + h_n) - f x) / h_n` as computed and `r_{-1} = 0`: if `n`
is the least index with `h_n > 1e-11` and `|r_{n-1} - r_n| < 1e-6`, then `derivativeAt f x`
(with fuel for more than `n` loop bodies) returns the newly computed `r_n` with a `nil`
error.  Only the pair `r_{n-1}`, `r_n` enters the test. -/
theorem derivativeAt_returns_computed_estimate (ops : FloatOps F) (laws : StepLaws ops)
    (f : F → F) (x : F) (n fuel : Nat)
    (hguard : ops.lt ops.stepMin (stepAt ops n) = true)
    (hconv : ops.lt (ops.abs (ops.sub (prevQuotAt ops f x n) (quotAt ops f x n)))
      ops.tolScalar = true)
    (hleast : ∀ m, m < n →
      ¬ (ops.lt ops.stepMin (stepAt ops m) = true ∧
          ops.lt (ops.abs (ops.sub (prevQuotAt ops f x m) (quotAt ops f x m)))
            ops.tolScalar = true))
    (hfuel : n < fuel) :
    derivativeAt ops f x fuel = some (quotAt ops f x n, none) := by
  have key := scalarLoop_converges ops laws f x n 0 fuel (by simpa using hguard) hfuel
    (by simpa using hconv)
    (fun j _ hj hc => hleast j (by simpa using hj)
      ⟨scalarGuard_of_le ops laws (by omega) hguard, hc⟩)
  rw [Nat.zero_add] at key
  exact key

/-- C4: for every arithmetic satisfying the step laws (exact or binary64) in which the
guard `h_N > 1e-11` is false at some index `N` (`N = 34` in both), with fuel for `N` loop
bodies: `derivativeAt f x` returns the not-differentiable error exactly when the test
`|r_{n-1} - r_n| < 1e-6` on the computed estimates fails at every `n` with `h_n > 1e-11`;
and whenever it returns an error at all, that error is the not-differentiable one built
from the point `x`, next to the value `0`. -/
theorem derivativeAt_fails_iff_no_agreement (ops : FloatOps F) (laws : StepLaws ops)
    (f : F → F) (x : F) (N fuel : Nat)
    (hN : ops.lt ops.stepMin (stepAt ops N) = false) (hfuel : N ≤ fuel) :
    (derivativeAt ops f x fuel = some (ops.zero, some (DiffError.notDifferentiable x)) ↔
        ∀ n, ops.lt ops.stepMin (stepAt ops n) = true →
          ops.lt (ops.abs (ops.sub (prevQuotAt ops f x n) (quotAt ops f x n)))
            ops.tolScalar = false) ∧
      (∀ v e, derivativeAt ops f x fuel = some (v, some e) →
        v = ops.zero ∧ e = DiffError.notDifferentiable x) := by
  rcases derivativeAt_dichotomy ops laws f x N fuel hN hfuel with
    ⟨n, hg, hc, hres⟩ | ⟨hall, hres⟩
  · refine ⟨⟨fun h => ?_, fun h => ?_⟩, fun v e h => ?_⟩
    · rw [hres] at h; simp at h
    · rw [h n hg] at hc; exact absurd hc Bool.false_ne_true
    · rw [hres] at h; simp at h
  · refine ⟨⟨fun _ => hall, fun _ => hres⟩, fun v e h => ?_⟩
    rw [hres] at h
    simp only [Option.some.injEq, Prod.mk.injEq] at h
    exact ⟨h.1.symm, h.2.symm⟩

/-- C6: for every arithmetic satisfying the step laws (exact or binary64), with `k_n` the
scale of iteration `n`, `p_n = (f (x + k_n*h) - f x) / k_n` as computed and `p_{-1} = 0`: if
`n` is the least index with `k_n * lengthVect h > 1e-11` and `|p_{n-1} - p_n| < 1e-7`, then
`linearProjectionAt f x` at `h` (with fuel for more than `n` loop bodies) returns the old
limit `p_{n-1}`, not `p_n`; when `n = 0` that is the constant `0`. -/
theorem linearProjectionAt_returns_previous_estimate (ops : FloatOps F)
    (laws : StepLaws ops) (f : vector F → F) (x h : vector F) (n fuel : Nat)
    (hguard : ops.lt ops.stepMin (ops.mul (stepAt ops n) (lengthVect ops h)) = true)
    (hconv : ops.lt (ops.abs (ops.sub (prevProjAt ops f x h n) (projAt ops f x h n)))
      ops.tolVector = true)
    (hleast : ∀ m, m < n →
      ¬ (ops.lt ops.stepMin (ops.mul (stepAt ops m) (lengthVect ops h)) = true ∧
          ops.lt (ops.abs (ops.sub (prevProjAt ops f x h m) (projAt ops f x h m)))
            ops.tolVector = true))
    (hfuel : n < fuel) :
    linearProjectionAt ops f x fuel h = some (prevProjAt ops f x h n) ∧
      (n = 0 → linearProjectionAt ops f x fuel h = some ops.zero) := by
  have key := vectorLoop_converges ops laws f x h (lengthVect ops h) n 0 fuel
    (by simpa using hguard) hfuel (by simpa using hconv)
    (fun j _ hj hc => hleast j (by simpa using hj)
      ⟨scaledGuard_of_le ops laws _ (by omega) hguard, hc⟩)
  rw [Nat.zero_add] at key
  refine ⟨key, fun h0 => ?_⟩
  subst h0
  exact key

/-- C7: for every arithmetic satisfying the step laws (exact or binary64) and every
direction for which the guard `k_N * lengthVect h > 1e-11` is false at some index `N`: if
the test `|p_{n-1} - p_n| < 1e-7` on the computed projections fails at every `n` with
`k_n * lengthVect h > 1e-11`, then `linearProjectionAt f x` at `h` (with fuel for `N` loop
bodies) returns the plain value `0`; its result type has no error component. -/
theorem linearProjectionAt_falls_through_to_zero (ops : FloatOps F) (laws : StepLaws ops)
    (f : vector F → F) (x h : vector F) (N fuel : Nat)
    (hN : ops.lt ops.stepMin (ops.mul (stepAt ops N) (lengthVect ops h)) = false)
    (hall : ∀ n, ops.lt ops.stepMin (ops.mul (stepAt ops n) (lengthVect ops h)) = true →
      ops.lt (ops.abs (ops.sub (prevProjAt ops f x h n) (projAt ops f x h n)))
        ops.tolVector = false)
    (hfuel : N ≤ fuel) :
    linearProjectionAt ops f x fuel h = some ops.zero := by
  have hgf : ops.lt ops.stepMin (ops.mul (stepAt ops (0 + fuel)) (lengthVect ops h))
      = false := by
    rw [Nat.zero_add]
    by_contra hg
    have := scaledGuard_of_le ops laws (lengthVect ops h) hfuel (by simpa using hg)
    rw [hN] at this
    exact Bool.false_ne_true this
  exact vectorLoop_exhausts ops f x h (lengthVect ops h) fuel 0 _ hgf
    (fun hg hc => Bool.false_ne_true ((hall 0 hg).symm.trans hc))
    (fun j _ hg hc => by rw [hall j hg] at hc; exact Bool.false_ne_true hc)

end MachineClaims

section MachineWitnesses

/-- Witness for C3 in exact rational arithmetic: `f t = t + t*t/10000000` at `0` converges
at `n = 1`, where `r_0 = 1.00000001` and `r_1 = 1.000000005` differ, and `r_1` is returned. -/
theorem derivativeAt_returns_computed_estimate_witness :
    derivativeAt (exactOps ℚ Rat.sqrt) (fun t : ℚ => t + t * t / 10000000) 0 2
        = some (quotAt (exactOps ℚ Rat.sqrt) (fun t : ℚ => t + t * t / 10000000) 0 1, none) ∧
      quotAt (exactOps ℚ Rat.sqrt) (fun t : ℚ => t + t * t / 10000000) 0 1 = 1.000000005 ∧
      prevQuotAt (exactOps ℚ Rat.sqrt) (fun t : ℚ => t + t * t / 10000000) 0 1
        = 1.00000001 := by
  have q0 : Mathcode.quotAt (fun t : ℚ => t + t * t / 10000000) 0 0 = 1.00000001 := by
    norm_num [Mathcode.quotAt, Mathcode.stepAt]
  have q1 : Mathcode.quotAt (fun t : ℚ => t + t * t / 10000000) 0 1 = 1.000000005 := by
    norm_num [Mathcode.quotAt, Mathcode.stepAt]
  refine ⟨derivativeAt_returns_computed_estimate (exactOps ℚ Rat.sqrt)
    (exactOps_stepLaws Rat.sqrt) (fun t : ℚ => t + t * t / 10000000) 0 1 2 ?_ ?_ ?_
    (by decide), ?_, ?_⟩
  · rw [exactOps_guard, stepAt_exactOps, decide_eq_true_eq]
    norm_num [Mathcode.stepAt]
  · rw [exactOps_scalarTest, prevQuotAt_exactOps, quotAt_exactOps, decide_eq_true_eq]
    simp only [Mathcode.prevQuotAt]
    rw [q0, q1, abs_of_pos (by norm_num)]
    norm_num
  · intro m hm
    have hm0 : m = 0 := by omega
    subst hm0
    rw [exactOps_scalarTest, prevQuotAt_exactOps, quotAt_exactOps, decide_eq_true_eq]
    simp only [Mathcode.prevQuotAt]
    rw [q0, zero_sub, abs_neg, abs_of_pos (by norm_num)]
    intro h
    exact absurd h.2 (by norm_num)
  · rw [quotAt_exactOps, q1]
  · rw [prevQuotAt_exactOps]
    exact q0

/-- The estimates of the unit jump at `0` in exact arithmetic. -/
theorem quotAt_jump (n : Nat) :
    Mathcode.quotAt (fun t : ℚ => if t = 0 then 0 else 1) 0 n = 10 * 2 ^ n := by
  have hne : (Mathcode.stepAt n : ℚ) ≠ 0 := Mathcode.stepAt_ne_zero n
  unfold Mathcode.quotAt
  simp only [zero_add, if_neg hne, if_pos, sub_zero]
  unfold Mathcode.stepAt
  norm_num
  ring

/-- Witness for C4 in exact rational arithmetic: the unit jump at `0` (`f 0 = 0`, `f t = 1`
elsewhere) has the estimates `10 * 2^n`, the test fails at every index, and `derivativeAt`
returns the not-differentiable error. -/
theorem derivativeAt_fails_iff_no_agreement_witness :
    derivativeAt (exactOps ℚ Rat.sqrt) (fun t : ℚ => if t = 0 then 0 else 1) 0 34
      = some (0, some (DiffError.notDifferentiable 0)) := by
  have hN : (exactOps ℚ Rat.sqrt).lt (exactOps ℚ Rat.sqrt).stepMin
      (stepAt (exactOps ℚ Rat.sqrt) 34) = false := by
    rw [exactOps_guard, stepAt_exactOps, decide_eq_false_iff_not]
    unfold Mathcode.stepAt
    norm_num
  refine ((derivativeAt_fails_iff_no_agreement (exactOps ℚ Rat.sqrt)
    (exactOps_stepLaws Rat.sqrt) (fun t : ℚ => if t = 0 then 0 else 1) 0 34 34 hN
    (le_refl 34)).1).mpr (fun n _ => ?_)
  rw [exactOps_scalarTest, prevQuotAt_exactOps, quotAt_exactOps, decide_eq_false_iff_not,
    not_lt]
  cases n with
  | zero =>
    simp only [Mathcode.prevQuotAt]
    rw [quotAt_jump]
    norm_num
  | succ m =>
    simp only [Mathcode.prevQuotAt]
    rw [quotAt_jump, quotAt_jump]
    have e : (10 : ℚ) * 2 ^ m - 10 * 2 ^ (m + 1) = -(10 * 2 ^ m) := by ring
    have hp : (1 : ℚ) ≤ 2 ^ m := one_le_pow₀ (by norm_num)
    rw [e, abs_neg, abs_of_pos (by positivity)]
    linarith

/-- Witness for C6 in exact rational arithmetic: `f v = v.X + v.X*v.X/10000000` at the
origin in direction `(1, 0, 0)` converges at `n = 1`, where `p_0 = 1.00000001` and
`p_1 = 1.000000005` differ, and the old limit `p_0` is returned. -/
theorem linearProjectionAt_returns_previous_estimate_witness :
    linearProjectionAt (exactOps ℚ Rat.sqrt)
        (fun v : vector ℚ => v.X + v.X * v.X / 10000000) ⟨0, 0, 0⟩ 2 ⟨1, 0, 0⟩
        = some 1.00000001 ∧
      projAt (exactOps ℚ Rat.sqrt) (fun v : vector ℚ => v.X + v.X * v.X / 10000000)
        ⟨0, 0, 0⟩ ⟨1, 0, 0⟩ 1 = 1.000000005 := by
  have p0 : Mathcode.projAt (fun v : vector ℚ => v.X + v.X * v.X / 10000000)
      ⟨0, 0, 0⟩ ⟨1, 0, 0⟩ 0 = 1.00000001 := by
    norm_num [Mathcode.projAt, Mathcode.stepAt, Mathcode.sumVect, Mathcode.scaleVect]
  have p1 : Mathcode.projAt (fun v : vector ℚ => v.X + v.X * v.X / 10000000)
      ⟨0, 0, 0⟩ ⟨1, 0, 0⟩ 1 = 1.000000005 := by
    norm_num [Mathcode.projAt, Mathcode.stepAt, Mathcode.sumVect, Mathcode.scaleVect]
  have hlen : Mathcode.lengthVect Rat.sqrt (⟨1, 0, 0⟩ : vector ℚ) = 1 := by
    norm_num [Mathcode.lengthVect]
  have key := (linearProjectionAt_returns_previous_estimate (exactOps ℚ Rat.sqrt)
    (exactOps_stepLaws Rat.sqrt) (fun v : vector ℚ => v.X + v.X * v.X / 10000000)
    ⟨0, 0, 0⟩ ⟨1, 0, 0⟩ 1 2 ?_ ?_ ?_ (by decide)).1
  · rw [key, prevProjAt_exactOps, projAt_exactOps]
    simp only [Mathcode.prevProjAt]
    rw [p0, p1]
    exact ⟨rfl, rfl⟩
  · rw [exactOps_scaledGuard, stepAt_exactOps, lengthVect_exactOps, hlen, decide_eq_true_eq]
    norm_num [Mathcode.stepAt]
  · rw [exactOps_vectorTest, prevProjAt_exactOps, projAt_exactOps, decide_eq_true_eq]
    simp only [Mathcode.prevProjAt]
    rw [p0, p1, abs_of_pos (by norm_num)]
    norm_num
  · intro m hm
    have hm0 : m = 0 := by omega
    subst hm0
    rw [exactOps_vectorTest, prevProjAt_exactOps, projAt_exactOps, decide_eq_true_eq]
    simp only [Mathcode.prevProjAt]
    rw [p0, zero_sub, abs_neg, abs_of_pos (by norm_num)]
    intro h
    exact absurd h.2 (by norm_num)

/-- Witness for C7 in exact rational arithmetic: `f v = 1000 * v.X` at the origin in the
direction `(1.5e-10, 0, 0)`: the guard holds at `n = 0` only, where `|0 - p_0| = 1.5e-7`,
and the loop ends with `0` after one body. -/
theorem linearProjectionAt_falls_through_to_zero_witness :
    linearProjectionAt (exactOps ℚ Rat.sqrt) (fun v : vector ℚ => 1000 * v.X) ⟨0, 0, 0⟩ 1
      ⟨3 / 20000000000, 0, 0⟩ = some 0 := by
  have hlen : Mathcode.lengthVect Rat.sqrt (⟨3 / 20000000000, 0, 0⟩ : vector ℚ)
      = 3 / 20000000000 := by
    have e : ((3 / 20000000000 : ℚ) * (3 / 20000000000) + 0 * 0 + 0 * 0)
        = (3 / 20000000000) * (3 / 20000000000) := by norm_num
    simp only [Mathcode.lengthVect]
    rw [e, Rat.sqrt_eq]
    norm_num
  have hN : (exactOps ℚ Rat.sqrt).lt (exactOps ℚ Rat.sqrt).stepMin
      ((exactOps ℚ Rat.sqrt).mul (stepAt (exactOps ℚ Rat.sqrt) 1)
        (lengthVect (exactOps ℚ Rat.sqrt) (⟨3 / 20000000000, 0, 0⟩ : vector ℚ)))
      = false := by
    rw [exactOps_scaledGuard, stepAt_exactOps, lengthVect_exactOps, hlen,
      decide_eq_false_iff_not]
    norm_num [Mathcode.stepAt]
  refine linearProjectionAt_falls_through_to_zero (exactOps ℚ Rat.sqrt)
    (exactOps_stepLaws Rat.sqrt) (fun v : vector ℚ => 1000 * v.X) ⟨0, 0, 0⟩
    ⟨3 / 20000000000, 0, 0⟩ 1 1 hN (fun n hg => ?_) (le_refl 1)
  rcases Nat.eq_zero_or_pos n with h0 | hpos
  · subst h0
    have p0 : Mathcode.projAt (fun v : vector ℚ => 1000 * v.X) ⟨0, 0, 0⟩
        ⟨3 / 20000000000, 0, 0⟩ 0 = 3 / 20000000 := by
      norm_num [Mathcode.projAt, Mathcode.stepAt, Mathcode.sumVect, Mathcode.scaleVect]
    rw [exactOps_vectorTest, prevProjAt_exactOps, projAt_exactOps, decide_eq_false_iff_not,
      not_lt]
    simp only [Mathcode.prevProjAt]
    rw [p0, zero_sub, abs_neg, abs_of_pos (by norm_num)]
    norm_num
  · have h1 := scaledGuard_of_le (exactOps ℚ Rat.sqrt) (exactOps_stepLaws Rat.sqrt) _ hpos hg
    rw [hN] at h1
    exact absurd h1 Bool.false_ne_true

end MachineWitnesses

end Machine

/-! ## Iterations of `linearProjectionAt` -/

section VectorIterations

variable {K : Type} [LinearOrderedField K]

/-- The projections of `v ↦ 1000000 * (v.X * v.X)` at the origin in direction `(2, 0, 0)`. -/
theorem projAt_steep (n : Nat) :
    projAt (fun v : vector ℚ => 1000000 * (v.X * v.X)) ⟨0, 0, 0⟩ ⟨2, 0, 0⟩ n
      = 4000000 * stepAt n := by
  have hne : (stepAt n : ℚ) ≠ 0 := stepAt_ne_zero n
  simp only [projAt, sumVect, scaleVect]
  field_simp
  ring

theorem lengthVect_two : lengthVect Rat.sqrt (⟨2, 0, 0⟩ : vector ℚ) = 2 := by
  have e : ((2 : ℚ) * 2 + 0 * 0 + 0 * 0) = 2 * 2 := by norm_num
  simp only [lengthVect]
  rw [e, Rat.sqrt_eq]
  norm_num

/-- Counterexample to C15 as stated: for `f v = 1000000 * (v.X * v.X)` at the origin in the
direction `(2, 0, 0)` (length `2`), fuel for 34 loop bodies is not enough, and the loop body
runs 35 times, at the scales `k_0, ..., k_34`, before the loop ends with `0`. -/
theorem linearProjectionAt_runs_35_bodies :
    linearProjectionAt Rat.sqrt (fun v : vector ℚ => 1000000 * (v.X * v.X)) ⟨0, 0, 0⟩ 34
        ⟨2, 0, 0⟩ = none ∧
      linearProjectionAtTraced Rat.sqrt (fun v : vector ℚ => 1000000 * (v.X * v.X))
        ⟨0, 0, 0⟩ 35 ⟨2, 0, 0⟩ = (some 0, (List.range 35).map stepAt) ∧
      (linearProjectionAtTraced Rat.sqrt (fun v : vector ℚ => 1000000 * (v.X * v.X))
        ⟨0, 0, 0⟩ 35 ⟨2, 0, 0⟩).2.length = 35 := by
  have hg34 : (stepAt 34 : ℚ) * 2 > 0.00000000001 := by
    unfold stepAt; norm_num
  have hg35 : ¬ (stepAt 35 : ℚ) * 2 > 0.00000000001 := by
    unfold stepAt; norm_num
  have h0 : ¬ |(0 : ℚ) - projAt (fun v : vector ℚ => 1000000 * (v.X * v.X)) ⟨0, 0, 0⟩
      ⟨2, 0, 0⟩ 0| < 0.0000001 := by
    rw [projAt_steep, stepAt_zero]
    norm_num
  have hnot : ∀ j, 0 < j → j < 35 →
      ¬ |prevProjAt (fun v : vector ℚ => 1000000 * (v.X * v.X)) ⟨0, 0, 0⟩ ⟨2, 0, 0⟩ j
          - projAt (fun v : vector ℚ => 1000000 * (v.X * v.X)) ⟨0, 0, 0⟩ ⟨2, 0, 0⟩ j|
        < 0.0000001 := by
    intro j hj0 hj
    obtain ⟨i, rfl⟩ : ∃ i, j = i + 1 := ⟨j - 1, by omega⟩
    simp only [prevProjAt]
    rw [projAt_steep, projAt_steep]
    have e : (4000000 : ℚ) * stepAt i - 4000000 * stepAt (i + 1)
        = 4000000 * stepAt (i + 1) := by
      rw [stepAt_succ]; ring
    have h34 : (stepAt 34 : ℚ) ≤ stepAt (i + 1) := stepAt_antitone (by omega)
    have v34 : (0.00000000000582 : ℚ) < stepAt 34 := by
      unfold stepAt; norm_num
    rw [e, abs_of_pos (mul_pos (by norm_num) (stepAt_pos _)), not_lt]
    linarith
  have run35 := linearProjectionAtLoopTraced_run
    (fun v : vector ℚ => 1000000 * (v.X * v.X)) ⟨0, 0, 0⟩ ⟨2, 0, 0⟩ 2 35 0 0
    (fun j _ hj => guard_of_le 2 (by omega) hg34) (fun _ => h0)
    (fun j h1 h2 => hnot j h1 (by omega))
  have run34 := linearProjectionAtLoopTraced_run
    (fun v : vector ℚ => 1000000 * (v.X * v.X)) ⟨0, 0, 0⟩ ⟨2, 0, 0⟩ 2 34 0 0
    (fun j _ hj => guard_of_le 2 (by omega) hg34) (fun _ => h0)
    (fun j h1 h2 => hnot j h1 (by omega))
  rw [Nat.zero_add, if_neg hg35, ← List.range_eq_range'] at run35
  rw [Nat.zero_add, if_pos hg34] at run34
  have t35 : linearProjectionAtTraced Rat.sqrt (fun v : vector ℚ => 1000000 * (v.X * v.X))
      ⟨0, 0, 0⟩ 35 ⟨2, 0, 0⟩ = (some 0, (List.range 35).map stepAt) := by
    rw [linearProjectionAtTraced_eq_loop, lengthVect_two, run35]
  refine ⟨?_, t35, ?_⟩
  · rw [← linearProjectionAtTraced_fst, linearProjectionAtTraced_eq_loop, lengthVect_two,
      run34]
  · rw [t35]
    simp

/-- C15, as the code behaves: the cap of 34 loop bodies holds for directions of length at
most `1`.  For such `h` and fuel for 34 bodies, `linearProjectionAt f x` at `h` returns, and
the scales at which a body runs are `k_0, ..., k_{c-1}` for some `c ≤ 34`. -/
theorem linearProjectionAt_at_most_34_of_short (sqrt : K → K) (f : vector K → K)
    (x h : vector K) (fuel : Nat) (hL : lengthVect sqrt h ≤ 1) (hfuel : 34 ≤ fuel) :
    (linearProjectionAtTraced sqrt f x fuel h).1 = linearProjectionAt sqrt f x fuel h ∧
      linearProjectionAt sqrt f x fuel h ≠ none ∧
      ∃ c, c ≤ 34 ∧
        (linearProjectionAtTraced sqrt f x fuel h).2 = (List.range c).map stepAt := by
  have hg34 : ¬ (stepAt 34 : K) * lengthVect sqrt h > 0.00000000001 := by
    have h1 : (stepAt 34 : K) * lengthVect sqrt h ≤ stepAt 34 * 1 :=
      mul_le_mul_of_nonneg_left hL (stepAt_pos 34).le
    have h2 : ¬ (stepAt 34 : K) > 0.00000000001 := by
      rw [stepAt_gt_iff]; omega
    rw [mul_one] at h1
    exact fun hg => h2 (lt_of_lt_of_le hg h1)
  refine ⟨linearProjectionAtTraced_fst sqrt f x h fuel, ?_, ?_⟩
  · rw [linearProjectionAt_eq_loop]
    refine linearProjectionAtLoop_ne_none f x h _ fuel 0 _ (fun hg => ?_)
    exact hg34 (guard_of_le _ (by omega) hg)
  · obtain ⟨c, _, hc2, hc3⟩ :=
      linearProjectionAtLoopTraced_steps f x h (lengthVect sqrt h) fuel 0 0
    rw [← linearProjectionAtTraced_eq_loop, ← List.range_eq_range'] at hc3
    refine ⟨c, ?_, hc3⟩
    by_contra hc
    exact hg34 (hc2 34 (by omega) (by omega))

/-- Witness for the amended C15 on the rationals: `f v = v.X * v.X` at `(1, 2, 3)` in the
unit direction `(1, 0, 0)`. -/
theorem linearProjectionAt_at_most_34_of_short_witness :
    (lengthVect Rat.sqrt (⟨1, 0, 0⟩ : vector ℚ) ≤ 1) ∧
      linearProjectionAt Rat.sqrt (fun v : vector ℚ => v.X * v.X) ⟨1, 2, 3⟩ 34 ⟨1, 0, 0⟩
        ≠ none :=
  ⟨by norm_num [lengthVect],
    (linearProjectionAt_at_most_34_of_short Rat.sqrt (fun v : vector ℚ => v.X * v.X)
      ⟨1, 2, 3⟩ ⟨1, 0, 0⟩ 34 (by norm_num [lengthVect]) (le_refl 34)).2.1⟩

/-- Over the reals, `2^n < M` says that `n` is below the base-2 logarithm of `M`. -/
theorem pow_lt_iff_lt_logb (M : ℝ) (n : Nat) (hM : 0 < M) :
    (2 : ℝ) ^ n < M ↔ (n : ℝ) < Real.logb 2 M := by
  rw [Real.lt_logb_iff_rpow_lt (by norm_num) hM, Real.rpow_natCast]

/-- C19: on the reals, for every `f`, `x`, `h` and `L = lengthVect h`, the loop of
`linearProjectionAt f x` at `h` terminates, and a body runs only at indices `n` with
`0.1 * L / 2^n > 1e-11`.  When `L ≤ 1e-10` no body runs (fuel `0` suffices); when
`L > 1e-10` at most `floor (log2 (L * 1e10)) + 1` bodies run, and that much fuel suffices. -/
theorem linearProjectionAt_terminates (sqrt : ℝ → ℝ) (f : vector ℝ → ℝ) (x h : vector ℝ) :
    (∀ fuel, ∃ c, (linearProjectionAtTraced sqrt f x fuel h).2 = (List.range c).map stepAt ∧
        ∀ n, n < c → 0.1 * lengthVect sqrt h / 2 ^ n > 0.00000000001) ∧
      (lengthVect sqrt h ≤ 0.0000000001 →
        ∀ fuel, linearProjectionAt sqrt f x fuel h ≠ none ∧
          (linearProjectionAtTraced sqrt f x fuel h).2 = []) ∧
      (lengthVect sqrt h > 0.0000000001 →
        ∀ fuel,
          (⌊Real.logb 2 (lengthVect sqrt h * 10000000000)⌋₊ + 1 ≤ fuel →
            linearProjectionAt sqrt f x fuel h ≠ none) ∧
          (linearProjectionAtTraced sqrt f x fuel h).2.length
            ≤ ⌊Real.logb 2 (lengthVect sqrt h * 10000000000)⌋₊ + 1) := by
  have steps : ∀ fuel, ∃ c,
      (linearProjectionAtTraced sqrt f x fuel h).2 = (List.range c).map stepAt ∧
        ∀ n, n < c → (stepAt n : ℝ) * lengthVect sqrt h > 0.00000000001 := by
    intro fuel
    obtain ⟨c, _, hc2, hc3⟩ :=
      linearProjectionAtLoopTraced_steps f x h (lengthVect sqrt h) fuel 0 0
    rw [← linearProjectionAtTraced_eq_loop, ← List.range_eq_range'] at hc3
    exact ⟨c, hc3, fun n hn => hc2 n (Nat.zero_le n) (by omega)⟩
  refine ⟨fun fuel => ?_, fun hL fuel => ?_, fun hL fuel => ?_⟩
  · obtain ⟨c, hc1, hc2⟩ := steps fuel
    refine ⟨c, hc1, fun n hn => ?_⟩
    have e : (0.1 : ℝ) * lengthVect sqrt h / 2 ^ n = stepAt n * lengthVect sqrt h := by
      unfold stepAt; ring
    rw [e]
    exact hc2 n hn
  · have hno : ∀ n, ¬ (stepAt n : ℝ) * lengthVect sqrt h > 0.00000000001 := by
      intro n hg
      have h0 := guard_of_le _ (Nat.zero_le n) hg
      rw [guard_iff_pow_lt, pow_zero] at h0
      linarith
    constructor
    · rw [linearProjectionAt_eq_loop]
      exact linearProjectionAtLoop_ne_none f x h _ fuel 0 _ (hno _)
    · obtain ⟨c, hc1, hc2⟩ := steps fuel
      rcases Nat.eq_zero_or_pos c with hc | hc
      · rw [hc1, hc]; rfl
      · exact absurd (hc2 0 hc) (hno 0)
  · have hM : (0 : ℝ) < lengthVect sqrt h * 10000000000 := by linarith
    constructor
    · intro hfuel
      rw [linearProjectionAt_eq_loop]
      refine linearProjectionAtLoop_ne_none f x h _ fuel 0 _ (fun hg => ?_)
      rw [Nat.zero_add] at hg
      have hg1 := guard_of_le _ hfuel hg
      rw [guard_iff_pow_lt, pow_lt_iff_lt_logb _ _ hM] at hg1
      have hfl := Nat.lt_floor_add_one (Real.logb 2 (lengthVect sqrt h * 10000000000))
      push_cast at hg1
      linarith
    · obtain ⟨c, hc1, hc2⟩ := steps fuel
      rw [hc1, List.length_map, List.length_range]
      rcases Nat.eq_zero_or_pos c with hc | hc
      · omega
      · have hg := hc2 (c - 1) (by omega)
        rw [guard_iff_pow_lt, pow_lt_iff_lt_logb _ _ hM] at hg
        have := Nat.le_floor hg.le
        omega

/-- The projections of a linear scalar field are all equal to the dot product `a.h`. -/
theorem projAt_linearField (a x h : vector K) (c : K) (n : Nat) :
    projAt (linearField a c) x h n = dotVect a h := by
  have hne : (stepAt n : K) ≠ 0 := stepAt_ne_zero n
  simp only [projAt, linearField, dotVect, sumVect, scaleVect]
  field_simp
  ring

/-- On a linear scalar field the 3-D loop returns `0` in its first body when
`|a.h| < 1e-7`, and `a.h` in its second body otherwise. -/
theorem linearProjectionAt_linearField_cases (sqrt : K → K) (a x h : vector K) (c : K)
    (fuel : Nat) (hguard : (0.05 : K) * lengthVect sqrt h > 0.00000000001)
    (hfuel : 2 ≤ fuel) :
    (0.0000001 ≤ |dotVect a h| →
        linearProjectionAt sqrt (linearField a c) x fuel h = some (dotVect a h)) ∧
      (|dotVect a h| < 0.0000001 →
        linearProjectionAt sqrt (linearField a c) x fuel h = some 0) := by
  have e1 : (stepAt 1 : K) = 0.05 := by
    unfold stepAt; norm_num
  have hg1 : (stepAt (0 + 1) : K) * lengthVect sqrt h > 0.00000000001 := by
    rw [Nat.zero_add, e1]; exact hguard
  have hg0 : (stepAt (0 + 0) : K) * lengthVect sqrt h > 0.00000000001 :=
    guard_of_le _ (by omega) hg1
  constructor
  · intro hbig
    have h0 : ¬ |prevProjAt (linearField a c) x h 0 - projAt (linearField a c) x h 0|
        < 0.0000001 := by
      rw [projAt_linearField]
      simp only [prevProjAt]
      rw [zero_sub, abs_neg]
      exact not_lt.mpr hbig
    have h1 : |prevProjAt (linearField a c) x h (0 + 1)
        - projAt (linearField a c) x h (0 + 1)| < 0.0000001 := by
      simp only [prevProjAt]
      rw [projAt_linearField, projAt_linearField, sub_self, abs_zero]
      norm_num
    have key := linearProjectionAtLoop_converges (linearField a c) x h
      (lengthVect sqrt h) 1 0 fuel hg1 (by omega) h1
      (fun j _ hj2 => by
        have hj : j = 0 := by omega
        subst hj
        exact h0)
    rw [linearProjectionAt_eq_loop, key]
    simp only [prevProjAt]
    rw [projAt_linearField]
  · intro hsmall
    have h0 : |prevProjAt (linearField a c) x h (0 + 0)
        - projAt (linearField a c) x h (0 + 0)| < 0.0000001 := by
      rw [projAt_linearField]
      simp only [prevProjAt]
      rw [zero_sub, abs_neg]
      exact hsmall
    have key := linearProjectionAtLoop_converges (linearField a c) x h
      (lengthVect sqrt h) 0 0 fuel hg0 (by omega) h0
      (fun j hj1 hj2 => absurd hj2 (by omega))
    rw [linearProjectionAt_eq_loop, key]
    rfl

/-- C20: on a linear scalar field `v ↦ a.v + c`, at every base point and for every direction
`h` with `0.05 * lengthVect h > 1e-11`, `linearProjectionAt` returns exactly `a.h` when
`|a.h| ≥ 1e-7` and exactly `0` when `|a.h| < 1e-7`.  It is not homogeneous: when `sqrt` is
exact on squares, for `a = (1, 0, 0)` the direction `(5e-8, 0, 0)` gives `0` while its
double gives `1e-7`. -/
theorem linearProjectionAt_linearField (sqrt : K → K) (a x h : vector K) (c : K)
    (fuel : Nat) (hguard : (0.05 : K) * lengthVect sqrt h > 0.00000000001)
    (hfuel : 2 ≤ fuel) :
    (0.0000001 ≤ |dotVect a h| →
        linearProjectionAt sqrt (linearField a c) x fuel h = some (dotVect a h)) ∧
      (|dotVect a h| < 0.0000001 →
        linearProjectionAt sqrt (linearField a c) x fuel h = some 0) ∧
      ((∀ t : K, 0 ≤ t → sqrt (t * t) = t) →
        linearProjectionAt sqrt (linearField ⟨1, 0, 0⟩ 0) ⟨0, 0, 0⟩ fuel
            ⟨0.00000005, 0, 0⟩ = some 0 ∧
          linearProjectionAt sqrt (linearField ⟨1, 0, 0⟩ 0) ⟨0, 0, 0⟩ fuel
            (scaleVect 2 ⟨0.00000005, 0, 0⟩) = some 0.0000001 ∧
          (0.0000001 : K) ≠ 2 * 0) := by
  obtain ⟨hbig, hsmall⟩ := linearProjectionAt_linearField_cases sqrt a x h c fuel hguard hfuel
  refine ⟨hbig, hsmall, fun hsq => ⟨?_, ?_, by norm_num⟩⟩
  · have hlen : lengthVect sqrt (⟨0.00000005, 0, 0⟩ : vector K) = 0.00000005 := by
      simp only [lengthVect]
      rw [mul_zero, add_zero, add_zero]
      exact hsq _ (by norm_num)
    refine (linearProjectionAt_linearField_cases sqrt ⟨1, 0, 0⟩ ⟨0, 0, 0⟩
      ⟨0.00000005, 0, 0⟩ 0 fuel (by rw [hlen]; norm_num) hfuel).2 ?_
    simp only [dotVect]
    rw [abs_of_pos (by norm_num)]
    norm_num
  · have hlen : lengthVect sqrt (scaleVect 2 (⟨0.00000005, 0, 0⟩ : vector K))
        = 0.0000001 := by
      simp only [lengthVect, scaleVect]
      rw [mul_zero, mul_zero, add_zero, add_zero]
      have := hsq (2 * 0.00000005) (by norm_num)
      rw [this]
      norm_num
    have key := (linearProjectionAt_linearField_cases sqrt ⟨1, 0, 0⟩ ⟨0, 0, 0⟩
      (scaleVect 2 ⟨0.00000005, 0, 0⟩) 0 fuel (by rw [hlen]; norm_num) hfuel).1 (by
        simp only [dotVect, scaleVect]
        rw [abs_of_pos (by norm_num)]
        norm_num)
    rw [key]
    simp only [dotVect, scaleVect]
    norm_num

/-- Witness for C20 on the rationals: `a = (3, 4, 5)`, `c = 7`, base point `(1, 2, 3)`,
direction `(1, 0, 0)`, where `a.h = 3`. -/
theorem linearProjectionAt_linearField_witness :
    ((0.05 : ℚ) * lengthVect Rat.sqrt ⟨1, 0, 0⟩ > 0.00000000001) ∧
      linearProjectionAt Rat.sqrt (linearField (⟨3, 4, 5⟩ : vector ℚ) 7) ⟨1, 2, 3⟩ 2
        ⟨1, 0, 0⟩ = some (dotVect ⟨3, 4, 5⟩ ⟨1, 0, 0⟩) :=
  ⟨by norm_num [lengthVect],
    (linearProjectionAt_linearField Rat.sqrt (⟨3, 4, 5⟩ : vector ℚ) ⟨1, 2, 3⟩ ⟨1, 0, 0⟩ 7 2
      (by norm_num [lengthVect]) (le_refl 2)).1
      (by
        simp only [dotVect]
        rw [abs_of_pos (by norm_num)]
        norm_num)⟩

end VectorIterations

/-! ## `derivative3D` on the sphere field -/

section Sphere

variable {K : Type} [LinearOrderedField K]

/-- A 3-D loop whose projections are `p_n = b + k_n`, with `|b + 0.1| ≥ 1e-7` and a
direction of length `1`, converges at index `20` and returns `p_19 = b + k_19`. -/
theorem linearProjectionAtLoop_of_shifted_steps (f : vector K → K) (x h : vector K) (b : K)
    (fuel : Nat) (hp : ∀ n, projAt f x h n = b + stepAt n)
    (hb : 0.0000001 ≤ |b + 0.1|) (hfuel : 21 ≤ fuel) :
    linearProjectionAtLoop f x h 1 fuel (stepAt 0) (prevProjAt f x h 0)
      = some (b + stepAt 19) := by
  have hg : (stepAt (0 + 20) : K) * 1 > 0.00000000001 := by
    unfold stepAt; norm_num
  have hdiff : ∀ i, |prevProjAt f x h (i + 1) - projAt f x h (i + 1)|
      = (stepAt (i + 1) : K) := by
    intro i
    simp only [prevProjAt]
    rw [hp, hp]
    have e : b + (stepAt i : K) - (b + stepAt (i + 1)) = stepAt (i + 1) := by
      rw [stepAt_succ]; ring
    rw [e, abs_of_pos (stepAt_pos _)]
  have hconv : |prevProjAt f x h (0 + 20) - projAt f x h (0 + 20)| < 0.0000001 := by
    rw [show 0 + 20 = 19 + 1 by rfl, hdiff]
    unfold stepAt; norm_num
  have hnot : ∀ j, 0 ≤ j → j < 0 + 20 →
      ¬ |prevProjAt f x h j - projAt f x h j| < 0.0000001 := by
    intro j _ hj
    rcases Nat.eq_zero_or_pos j with h0 | hpos
    · subst h0
      simp only [prevProjAt]
      rw [hp, stepAt_zero, zero_sub, abs_neg]
      exact not_lt.mpr hb
    · obtain ⟨i, rfl⟩ : ∃ i, j = i + 1 := ⟨j - 1, by omega⟩
      rw [hdiff, not_lt]
      have h19 : (stepAt 19 : K) ≤ stepAt (i + 1) := stepAt_antitone (by omega)
      have v19 : (0.0000001 : K) ≤ stepAt 19 := by
        unfold stepAt; norm_num
      exact v19.trans h19
  have key := linearProjectionAtLoop_converges f x h 1 20 0 fuel hg (by omega) hconv hnot
  rw [key]
  simp only [prevProjAt]
  rw [hp]

/-- C13: when `math.Sqrt 1 = 1`, with fuel for 21 loop bodies, `derivative3D sphereF` at the
base point `(1, 0, 0)` returns `2 + 0.1 / 2^19` in the direction `(1, 0, 0)` and
`0.1 / 2^19` in the directions `(0, 1, 0)` and `(0, 0, 1)`: within `1e-6` of `2`, `0`, `0`.
Moreover `derivative3D f x` is `linearProjectionAt f x`. -/
theorem derivative3D_sphere (sqrt : K → K) (hsqrt : sqrt 1 = 1) (fuel : Nat)
    (hfuel : 21 ≤ fuel) :
    derivative3D sqrt sphereF ⟨1, 0, 0⟩ fuel ⟨1, 0, 0⟩ = some (2 + 0.1 / 2 ^ 19) ∧
      derivative3D sqrt sphereF ⟨1, 0, 0⟩ fuel ⟨0, 1, 0⟩ = some (0.1 / 2 ^ 19) ∧
      derivative3D sqrt sphereF ⟨1, 0, 0⟩ fuel ⟨0, 0, 1⟩ = some (0.1 / 2 ^ 19) ∧
      |(2 + 0.1 / 2 ^ 19 : K) - 2| < 0.000001 ∧
      |(0.1 / 2 ^ 19 : K) - 0| < 0.000001 ∧
      (∀ (f : vector K → K) (x : vector K),
        derivative3D sqrt f x = linearProjectionAt sqrt f x) := by
  have hlenX : lengthVect sqrt (⟨1, 0, 0⟩ : vector K) = 1 := by
    simp [lengthVect, hsqrt]
  have hlenY : lengthVect sqrt (⟨0, 1, 0⟩ : vector K) = 1 := by
    simp [lengthVect, hsqrt]
  have hlenZ : lengthVect sqrt (⟨0, 0, 1⟩ : vector K) = 1 := by
    simp [lengthVect, hsqrt]
  have hpX : ∀ n, projAt sphereF (⟨1, 0, 0⟩ : vector K) ⟨1, 0, 0⟩ n = 2 + stepAt n := by
    intro n
    have hne : (stepAt n : K) ≠ 0 := stepAt_ne_zero n
    simp only [projAt, sphereF, sumVect, scaleVect]
    field_simp
    ring
  have hpY : ∀ n, projAt sphereF (⟨1, 0, 0⟩ : vector K) ⟨0, 1, 0⟩ n = 0 + stepAt n := by
    intro n
    have hne : (stepAt n : K) ≠ 0 := stepAt_ne_zero n
    simp only [projAt, sphereF, sumVect, scaleVect]
    field_simp
  have hpZ : ∀ n, projAt sphereF (⟨1, 0, 0⟩ : vector K) ⟨0, 0, 1⟩ n = 0 + stepAt n := by
    intro n
    have hne : (stepAt n : K) ≠ 0 := stepAt_ne_zero n
    simp only [projAt, sphereF, sumVect, scaleVect]
    field_simp
  have hb2 : (0.0000001 : K) ≤ |2 + 0.1| := by
    rw [abs_of_pos (by norm_num)]; norm_num
  have hb0 : (0.0000001 : K) ≤ |0 + 0.1| := by
    rw [abs_of_pos (by norm_num)]; norm_num
  have e19 : (stepAt 19 : K) = 0.1 / 2 ^ 19 := rfl
  refine ⟨?_, ?_, ?_, ?_, ?_, fun f x => rfl⟩
  · unfold derivative3D
    rw [linearProjectionAt_eq_loop, hlenX,
      linearProjectionAtLoop_of_shifted_steps sphereF _ _ 2 fuel hpX hb2 hfuel, e19]
  · unfold derivative3D
    rw [linearProjectionAt_eq_loop, hlenY,
      linearProjectionAtLoop_of_shifted_steps sphereF _ _ 0 fuel hpY hb0 hfuel, e19, zero_add]
  · unfold derivative3D
    rw [linearProjectionAt_eq_loop, hlenZ,
      linearProjectionAtLoop_of_shifted_steps sphereF _ _ 0 fuel hpZ hb0 hfuel, e19, zero_add]
  · rw [add_sub_cancel_left, abs_of_pos (by positivity)]
    norm_num
  · rw [sub_zero, abs_of_pos (by positivity)]
    norm_num

/-- Witness for C13 on the rationals, with the rational square root and fuel `21`. -/
theorem derivative3D_sphere_witness :
    (Rat.sqrt 1 = 1) ∧
      derivative3D Rat.sqrt sphereF (⟨1, 0, 0⟩ : vector ℚ) 21 ⟨1, 0, 0⟩
        = some (2 + 0.1 / 2 ^ 19) :=
  ⟨by decide, (derivative3D_sphere Rat.sqrt (by decide) 21 (le_refl 21)).1⟩

end Sphere

/-! ## Soundness of the fixed-point enclosures -/

section Enclosures

theorem trigScale_cast : ((trigScale : Int) : ℝ) = 10 ^ 30 := by
  norm_num [trigScale]

theorem abs_sq_sub_sq_le (C c e : ℝ) (h : |C - c| ≤ e) :
    |C * C - c * c| ≤ e * (2 * |c| + e) := by
  have he : 0 ≤ e := (abs_nonneg _).trans h
  have e1 : C * C - c * c = (C - c) * ((C - c) + 2 * c) := by ring
  have h2 : |(C - c) + 2 * c| ≤ e + 2 * |c| := by
    refine (abs_add _ _).trans ?_
    rw [abs_mul, abs_two]
    linarith
  rw [e1, abs_mul]
  calc |C - c| * |C - c + 2 * c| ≤ e * (e + 2 * |c|) :=
        mul_le_mul h h2 (abs_nonneg _) he
    _ = e * (2 * |c| + e) := by ring

theorem abs_mul_sub_mul_le (C Z c s e : ℝ) (hC : |C - c| ≤ e) (hZ : |Z - s| ≤ e) :
    |C * Z - c * s| ≤ e * (|c| + |s| + e) := by
  have he : 0 ≤ e := (abs_nonneg _).trans hC
  have e1 : C * Z - c * s = (C - c) * ((Z - s) + s) + c * (Z - s) := by ring
  have h2 : |(Z - s) + s| ≤ e + |s| := (abs_add _ _).trans (by linarith)
  have h3 : |(C - c) * ((Z - s) + s)| ≤ e * (e + |s|) := by
    rw [abs_mul]
    exact mul_le_mul hC h2 (abs_nonneg _) he
  have h4 : |c * (Z - s)| ≤ |c| * e := by
    rw [abs_mul]
    exact mul_le_mul_of_nonneg_left hZ (abs_nonneg _)
  rw [e1]
  calc |(C - c) * ((Z - s) + s) + c * (Z - s)|
      ≤ |(C - c) * ((Z - s) + s)| + |c * (Z - s)| := abs_add _ _
    _ ≤ e * (e + |s|) + |c| * e := add_le_add h3 h4
    _ = e * (|c| + |s| + e) := by ring

/-- Dividing an enclosure by the scale with rounded integer divisions costs two units. -/
theorem enclose_ediv (T : ℝ) (q r d : Int) (hd : 0 < d)
    (h : |T * (d : ℝ) - (q : ℝ)| ≤ (r : ℝ)) :
    |T - ((q / d : Int) : ℝ)| ≤ ((r / d + 2 : Int) : ℝ) := by
  have hdR : (0 : ℝ) < (d : ℝ) := by exact_mod_cast hd
  have h1 : ((q / d : Int) : ℝ) * (d : ℝ) ≤ (q : ℝ) := by
    exact_mod_cast Int.ediv_mul_le q hd.ne.symm
  have h2 : (q : ℝ) < (((q / d : Int) : ℝ) + 1) * (d : ℝ) := by
    exact_mod_cast Int.lt_ediv_add_one_mul_self q hd
  have h3 : (r : ℝ) < (((r / d : Int) : ℝ) + 1) * (d : ℝ) := by
    exact_mod_cast Int.lt_ediv_add_one_mul_self r hd
  rw [abs_le] at h
  rw [abs_le]
  push_cast
  constructor
  · have : (-(((r / d : Int) : ℝ) + 2)) * (d : ℝ) ≤ (T - ((q / d : Int) : ℝ)) * (d : ℝ) := by
      nlinarith [h.1, h.2]
    exact le_of_mul_le_mul_right this hdR
  · have : (T - ((q / d : Int) : ℝ)) * (d : ℝ) ≤ (((r / d : Int) : ℝ) + 2) * (d : ℝ) := by
      nlinarith [h.1, h.2]
    exact le_of_mul_le_mul_right this hdR

theorem trigScale_pos : (0 : Int) < trigScale := by
  decide

/-- Doubling the angle maps an enclosure of `θ` to an enclosure of `2 * θ`. -/
theorem trigDouble_valid (θ : ℝ) (a : Int × Int × Int) (h : trigValid θ a) :
    trigValid (2 * θ) (trigDouble a) := by
  obtain ⟨c, s, e⟩ := a
  obtain ⟨hc, hs⟩ := h
  simp only at hc hs
  have hsq := Real.sin_sq_add_cos_sq θ
  constructor
  · refine enclose_ediv _ _ _ _ trigScale_pos ?_
    have key : Real.cos (2 * θ) * (trigScale : ℝ) * (trigScale : ℝ)
        = (Real.cos θ * (trigScale : ℝ)) * (Real.cos θ * (trigScale : ℝ))
          - (Real.sin θ * (trigScale : ℝ)) * (Real.sin θ * (trigScale : ℝ)) := by
      rw [Real.cos_two_mul]
      linear_combination ((trigScale : ℝ) * (trigScale : ℝ)) * hsq
    have b1 := abs_sq_sub_sq_le _ _ _ hc
    have b2 := abs_sq_sub_sq_le _ _ _ hs
    rw [key]
    push_cast
    have tri := abs_sub (Real.cos θ * (trigScale : ℝ) * (Real.cos θ * (trigScale : ℝ))
        - (c : ℝ) * (c : ℝ))
      (Real.sin θ * (trigScale : ℝ) * (Real.sin θ * (trigScale : ℝ)) - (s : ℝ) * (s : ℝ))
    have e1 : Real.cos θ * (trigScale : ℝ) * (Real.cos θ * (trigScale : ℝ))
          - Real.sin θ * (trigScale : ℝ) * (Real.sin θ * (trigScale : ℝ))
          - ((c : ℝ) * (c : ℝ) - (s : ℝ) * (s : ℝ))
        = (Real.cos θ * (trigScale : ℝ) * (Real.cos θ * (trigScale : ℝ)) - (c : ℝ) * (c : ℝ))
          - (Real.sin θ * (trigScale : ℝ) * (Real.sin θ * (trigScale : ℝ))
            - (s : ℝ) * (s : ℝ)) := by ring
    rw [e1]
    linarith
  · refine enclose_ediv _ _ _ _ trigScale_pos ?_
    have key : Real.sin (2 * θ) * (trigScale : ℝ) * (trigScale : ℝ)
        = 2 * ((Real.cos θ * (trigScale : ℝ)) * (Real.sin θ * (trigScale : ℝ))) := by
      rw [Real.sin_two_mul]
      ring
    have b := abs_mul_sub_mul_le _ _ _ _ _ hc hs
    rw [key]
    push_cast
    rw [← mul_sub, abs_mul, abs_two]
    linarith

/-- Iterated doubling. -/
theorem trigIterate_valid (θ : ℝ) (a : Int × Int × Int) (h : trigValid θ a) (n : Nat) :
    trigValid (2 ^ n * θ) (trigDouble^[n] a) := by
  induction n with
  | zero => simpa using h
  | succ n ih =>
    rw [Function.iterate_succ_apply', show (2 : ℝ) ^ (n + 1) * θ = 2 * (2 ^ n * θ) by ring]
    exact trigDouble_valid _ _ ih

/-- The start enclosure, from the Taylor bounds of `cos` and `sin` near `0`. -/
theorem trigInit_valid : trigValid (10 / 2 ^ 26) trigInit := by
  have hx : |(10 / 2 ^ 26 : ℝ)| = 10 / 2 ^ 26 := abs_of_pos (by norm_num)
  have hx1 : |(10 / 2 ^ 26 : ℝ)| ≤ 1 := by rw [hx]; norm_num
  have hcos := Real.cos_bound hx1
  have hsin := Real.sin_bound hx1
  rw [hx, abs_le] at hcos hsin
  unfold trigValid trigInit
  rw [trigScale_cast, abs_le, abs_le]
  norm_num at hcos hsin ⊢
  refine ⟨⟨?_, ?_⟩, ⟨?_, ?_⟩⟩ <;> linarith [hcos.1, hcos.2, hsin.1, hsin.2]

/-- The enclosure `trigAt n` is an enclosure of the angle `10 * 2^n`. -/
theorem trigAt_valid (n : Nat) : trigValid (10 * 2 ^ n) (trigAt n) := by
  have h := trigIterate_valid _ _ trigInit_valid (26 + n)
  have e : (2 : ℝ) ^ (26 + n) * (10 / 2 ^ 26) = 10 * 2 ^ n := by
    rw [pow_add]
    field_simp
    ring
  rw [e] at h
  exact h

set_option maxRecDepth 100000 in
/-- The separation check succeeds at every index of the loop. -/
theorem gapOK_all : ∀ n, n < 34 → gapOK n = true := by
  decide

/-- Two reals enclosed by integers that are further apart than the two radii plus `10^24`
differ by at least `1e-6`. -/
theorem gap_of_enclosures (A B : ℝ) (a b ea eb : Int)
    (hA : |A * (trigScale : ℝ) - (a : ℝ)| ≤ (ea : ℝ))
    (hB : |B * (trigScale : ℝ) - (b : ℝ)| ≤ (eb : ℝ))
    (hgap : ea + eb + 10 ^ 24 ≤ ((a - b).natAbs : Int)) :
    (0.000001 : ℝ) ≤ |A - B| := by
  have hR : (ea : ℝ) + (eb : ℝ) + 10 ^ 24 ≤ |(a : ℝ) - (b : ℝ)| := by
    have := (Int.cast_le (R := ℝ)).mpr hgap
    push_cast at this
    rw [show (10 : ℝ) ^ 24 = 1000000000000000000000000 by norm_num]
    exact this
  rw [trigScale_cast, abs_le] at hA hB
  rcases le_abs.mp hR with h | h
  · refine le_abs.mpr (Or.inl ?_)
    norm_num
    linarith [hA.1, hB.2]
  · refine le_abs.mpr (Or.inr ?_)
    norm_num
    linarith [hA.2, hB.1]

/-- The case of `gap_of_enclosures` where the first real is `0`. -/
theorem gap_of_enclosure_zero (B : ℝ) (b eb : Int)
    (hB : |B * (trigScale : ℝ) - (b : ℝ)| ≤ (eb : ℝ))
    (hgap : eb + 10 ^ 24 ≤ (b.natAbs : Int)) :
    (0.000001 : ℝ) ≤ |0 - B| := by
  have hA : |(0 : ℝ) * (trigScale : ℝ) - ((0 : Int) : ℝ)| ≤ ((0 : Int) : ℝ) := by simp
  refine gap_of_enclosures 0 B 0 b 0 eb hA hB ?_
  rw [zero_add, zero_sub, Int.natAbs_neg]
  exact hgap

/-- The estimate `r_n` of `beast` at `0` is `sin (10 * 2^n)`. -/
theorem quotAt_beast (n : Nat) :
    quotAt (beast Real.sin) (0 : ℝ) n = Real.sin (10 * 2 ^ n) := by
  have hne : (stepAt n : ℝ) ≠ 0 := stepAt_ne_zero n
  have e : (1 : ℝ) / stepAt n = 10 * 2 ^ n := by
    unfold stepAt
    norm_num
    ring
  unfold quotAt beast
  rw [zero_add, if_neg hne, if_pos rfl, e, sub_zero]
  field_simp

/-- No two consecutive estimates of `beast` at `0` agree within `1e-6`. -/
theorem beast_gap (n : Nat) (hn : n < 34) :
    (0.000001 : ℝ) ≤ |prevQuotAt (beast Real.sin) (0 : ℝ) n - quotAt (beast Real.sin) 0 n| := by
  have hok := gapOK_all n hn
  cases n with
  | zero =>
    simp only [gapOK, decide_eq_true_eq] at hok
    have hB := (trigAt_valid 0).2
    have := gap_of_enclosure_zero _ _ _ hB hok
    rw [quotAt_beast]
    simp only [prevQuotAt]
    rw [pow_zero, mul_one] at this ⊢
    exact this
  | succ m =>
    simp only [gapOK, decide_eq_true_eq] at hok
    have hA := (trigAt_valid m).2
    have hB := (trigAt_valid (m + 1)).2
    have := gap_of_enclosures _ _ _ _ _ _ hA hB hok
    rw [quotAt_beast]
    simp only [prevQuotAt]
    rw [quotAt_beast]
    exact this

end Enclosures

/-! ## `derivativeAt` on `beast` -/

section BeastDemo

/-- C10: on the reals, the estimates of `beast` at `0` are `r_n = sin (10 * 2^n)`, no two
consecutive ones among `r_{-1} = 0, r_0, ..., r_33` are within `1e-6` of each other, and
`derivativeAt beast 0` (with fuel for the 34 loop bodies) returns the not-differentiable
error. -/
theorem derivativeAt_beast_fails (fuel : Nat) (hfuel : 34 ≤ fuel) :
    (∀ n, quotAt (beast Real.sin) (0 : ℝ) n = Real.sin (10 * 2 ^ n)) ∧
      (∀ n, n < 34 →
        (0.000001 : ℝ) ≤
          |prevQuotAt (beast Real.sin) (0 : ℝ) n - quotAt (beast Real.sin) 0 n|) ∧
      derivativeAt (beast Real.sin) (0 : ℝ) fuel
        = some (0, some (DiffError.notDifferentiable 0)) := by
  refine ⟨quotAt_beast, beast_gap, ?_⟩
  rw [derivativeAt_eq_loop]
  exact derivativeAtLoop_exhausts (beast Real.sin) 0 fuel 0 _ (by omega)
    (fun h0 => not_lt.mpr (beast_gap 0 h0))
    (fun j _ hj => not_lt.mpr (beast_gap j hj))

/-- Witness for C10: fuel `34`. -/
theorem derivativeAt_beast_fails_witness :
    derivativeAt (beast Real.sin) (0 : ℝ) 34
      = some (0, some (DiffError.notDifferentiable 0)) :=
  (derivativeAt_beast_fails 34 (le_refl 34)).2.2

end BeastDemo

/-! ## `derivativeAt` on `exp` and `sin` -/

section Transcendental

/-- With fuel for the 34 loop bodies: if the test succeeds at some index, and every estimate
that passes the test is within `ε` of `target`, then `derivativeAt` returns a value within
`ε` of `target`, and `derivative` returns the same value. -/
theorem derivativeAt_converges_near {K : Type} [LinearOrderedField K] (f : K → K)
    (x target ε : K) (fuel : Nat) (hfuel : 34 ≤ fuel)
    (hex : ∃ n, n < 34 ∧ |prevQuotAt f x n - quotAt f x n| < 0.000001)
    (hnear : ∀ n, n < 34 → |prevQuotAt f x n - quotAt f x n| < 0.000001 →
      |quotAt f x n - target| < ε) :
    ∃ v, derivativeAt f x fuel = some (v, none) ∧ |v - target| < ε ∧
      derivative f fuel x = some v := by
  rcases derivativeAt_cases f x fuel hfuel with ⟨n, hn, hconv, _, hres⟩ | ⟨hall, _⟩
  · exact ⟨quotAt f x n, hres, hnear n hn hconv, by simp [derivative, hres]⟩
  · obtain ⟨n, hn, hconv⟩ := hex
    exact absurd hconv (hall n hn)

/-- The step before `h_{m+1}` is twice as long. -/
theorem stepAt_eq_two_mul {K : Type} [LinearOrderedField K] (m : Nat) :
    (stepAt m : K) = 2 * stepAt (m + 1) := by
  rw [stepAt_succ]; ring

theorem stepAt_le_tenth {K : Type} [LinearOrderedField K] (n : Nat) :
    (stepAt n : K) ≤ 0.1 := by
  have h := stepAt_antitone (K := K) (Nat.zero_le n)
  rwa [stepAt_zero] at h

/-- The quotient of `exp` at `1` is at least `e`. -/
theorem exp_quot_ge (h : ℝ) (h0 : 0 < h) :
    Real.exp 1 ≤ (Real.exp (1 + h) - Real.exp 1) / h := by
  have hE : 0 < Real.exp 1 := Real.exp_pos 1
  have hu : h + 1 ≤ Real.exp h := Real.add_one_le_exp h
  rw [le_div_iff₀ h0, Real.exp_add]
  nlinarith

/-- The quotient of `exp` at `1` exceeds `e` by at most `e * h`. -/
theorem exp_quot_sub_le (h : ℝ) (h0 : 0 < h) (h1 : h ≤ 1) :
    (Real.exp (1 + h) - Real.exp 1) / h - Real.exp 1 ≤ Real.exp 1 * h := by
  have hE : 0 < Real.exp 1 := Real.exp_pos 1
  have hb := Real.abs_exp_sub_one_sub_id_le (x := h) (by rw [abs_of_pos h0]; exact h1)
  rw [abs_le] at hb
  rw [sub_le_iff_le_add, div_le_iff₀ h0, Real.exp_add]
  nlinarith [hb.2]

/-- The difference of the quotients of `exp` at `1` for the steps `2 * h` and `h`. -/
theorem exp_quot_diff (h : ℝ) (h0 : 0 < h) :
    (Real.exp (1 + 2 * h) - Real.exp 1) / (2 * h) - (Real.exp (1 + h) - Real.exp 1) / h
      = Real.exp 1 * (Real.exp h - 1) ^ 2 / (2 * h) := by
  have hne : h ≠ 0 := h0.ne.symm
  rw [show 1 + 2 * h = 1 + h + h by ring, Real.exp_add, Real.exp_add]
  field_simp
  ring

/-- Consecutive estimates of `exp` at `1`: their difference is between `e * h / 2` and
`e * h * (1 + h)^2 / 2`, for the smaller step `h`. -/
theorem exp_quot_diff_bounds (h : ℝ) (h0 : 0 < h) (h1 : h ≤ 1) :
    Real.exp 1 * h / 2 ≤ Real.exp 1 * (Real.exp h - 1) ^ 2 / (2 * h) ∧
      Real.exp 1 * (Real.exp h - 1) ^ 2 / (2 * h) ≤ Real.exp 1 * h * (1 + h) ^ 2 / 2 := by
  have hE : 0 < Real.exp 1 := Real.exp_pos 1
  have hu : h + 1 ≤ Real.exp h := Real.add_one_le_exp h
  have hb := Real.abs_exp_sub_one_sub_id_le (x := h) (by rw [abs_of_pos h0]; exact h1)
  rw [abs_le] at hb
  have hlo : h ≤ Real.exp h - 1 := by linarith
  have hhi : Real.exp h - 1 ≤ h * (1 + h) := by nlinarith [hb.2]
  have hsq1 : h ^ 2 ≤ (Real.exp h - 1) ^ 2 := pow_le_pow_left₀ h0.le hlo 2
  have hsq2 : (Real.exp h - 1) ^ 2 ≤ (h * (1 + h)) ^ 2 :=
    pow_le_pow_left₀ (h0.le.trans hlo) hhi 2
  constructor
  · rw [le_div_iff₀ (by positivity)]
    nlinarith
  · rw [div_le_iff₀ (by positivity)]
    nlinarith

/-- C11: on the reals, with fuel for the 34 loop bodies, `derivativeAt exp 1` returns a
value with a `nil` error, that value is within `1e-5` of `e = exp 1`, and `derivative exp`
returns the same value at `1`. -/
theorem derivativeAt_exp_one (fuel : Nat) (hfuel : 34 ≤ fuel) :
    ∃ v, derivativeAt Real.exp (1 : ℝ) fuel = some (v, none) ∧
      |v - Real.exp 1| < 0.00001 ∧ derivative Real.exp fuel (1 : ℝ) = some v := by
  have hE : 0 < Real.exp 1 := Real.exp_pos 1
  have hE3 : Real.exp 1 < 3 := lt_trans Real.exp_one_lt_d9 (by norm_num)
  have hE1 : 1 < Real.exp 1 := lt_trans (by norm_num) Real.exp_one_gt_d9
  have hdiff : ∀ m, prevQuotAt Real.exp (1 : ℝ) (m + 1) - quotAt Real.exp 1 (m + 1)
      = Real.exp 1 * (Real.exp (stepAt (m + 1)) - 1) ^ 2 / (2 * stepAt (m + 1)) := by
    intro m
    simp only [prevQuotAt, quotAt]
    rw [stepAt_eq_two_mul m]
    exact exp_quot_diff _ (stepAt_pos _)
  refine derivativeAt_converges_near Real.exp 1 (Real.exp 1) 0.00001 fuel hfuel ?_ ?_
  · refine ⟨33, by decide, ?_⟩
    have h0 : (0 : ℝ) < stepAt 33 := stepAt_pos 33
    have h1 : (stepAt 33 : ℝ) < 0.00000000002 := by
      unfold stepAt; norm_num
    have hb := exp_quot_diff_bounds (stepAt 33) h0 (by linarith)
    have hnn : 0 ≤ Real.exp 1 * (Real.exp (stepAt 33) - 1) ^ 2 / (2 * stepAt 33) := by
      positivity
    rw [hdiff 32, abs_of_nonneg hnn]
    refine lt_of_le_of_lt hb.2 ?_
    have h2 : (1 + stepAt 33 : ℝ) ^ 2 ≤ 2 := by nlinarith
    have h3 : Real.exp 1 * stepAt 33 ≤ 3 * 0.00000000002 :=
      mul_le_mul hE3.le h1.le h0.le (by norm_num)
    nlinarith [mul_nonneg hE.le h0.le]
  · intro n hn hconv
    rcases Nat.eq_zero_or_pos n with hn0 | hpos
    · subst hn0
      have hge := exp_quot_ge (stepAt 0) (stepAt_pos 0)
      simp only [prevQuotAt, quotAt] at hconv
      rw [zero_sub, abs_neg, abs_of_pos (lt_of_lt_of_le hE hge)] at hconv
      linarith
    · obtain ⟨m, rfl⟩ : ∃ m, n = m + 1 := ⟨n - 1, by omega⟩
      have h0 : (0 : ℝ) < stepAt (m + 1) := stepAt_pos _
      have h1 : (stepAt (m + 1) : ℝ) ≤ 1 := (stepAt_le_tenth _).trans (by norm_num)
      have hb := exp_quot_diff_bounds (stepAt (m + 1)) h0 h1
      have hnn : 0 ≤ Real.exp 1 * (Real.exp (stepAt (m + 1)) - 1) ^ 2
          / (2 * stepAt (m + 1)) := by positivity
      rw [hdiff m, abs_of_nonneg hnn] at hconv
      have hge := exp_quot_ge (stepAt (m + 1)) h0
      have hle := exp_quot_sub_le (stepAt (m + 1)) h0 h1
      simp only [quotAt]
      rw [abs_of_nonneg (by linarith)]
      linarith [hb.1]

/-- Witness for C11: fuel `34`. -/
theorem derivativeAt_exp_one_witness :
    ∃ v, derivativeAt Real.exp (1 : ℝ) 34 = some (v, none) ∧
      |v - Real.exp 1| < 0.00001 ∧ derivative Real.exp 34 (1 : ℝ) = some v :=
  derivativeAt_exp_one 34 (le_refl 34)

/-- The quotient of `sin` at `π` for the step `h` is `-(sin h / h)`. -/
theorem sin_pi_quot (h : ℝ) :
    (Real.sin (Real.pi + h) - Real.sin Real.pi) / h = -(Real.sin h / h) := by
  rw [Real.sin_add, Real.sin_pi, Real.cos_pi]
  ring

/-- For `0 < h ≤ 1`, `sin h / h` lies between `1 - h^2 / 4` and `1`. -/
theorem sin_div_bounds (h : ℝ) (h0 : 0 < h) (h1 : h ≤ 1) :
    1 - h ^ 2 / 4 < Real.sin h / h ∧ Real.sin h / h < 1 := by
  have hlo := Real.sin_gt_sub_cube h0 h1
  have hhi := Real.sin_lt h0
  constructor
  · rw [lt_div_iff₀ h0]
    nlinarith
  · rw [div_lt_iff₀ h0]
    linarith

/-- The difference of the quotients of `sin` at `π` for the steps `2 * h` and `h`. -/
theorem sin_quot_diff (h : ℝ) (h0 : 0 < h) :
    -(Real.sin (2 * h) / (2 * h)) - -(Real.sin h / h)
      = Real.sin h / h * (1 - Real.cos h) := by
  have hne : h ≠ 0 := h0.ne.symm
  rw [Real.sin_two_mul]
  field_simp
  ring

/-- For `0 < h ≤ 0.1`, `1 - cos h` lies between `0.49 * h^2` and `h^2 / 2`. -/
theorem one_sub_cos_bounds (h : ℝ) (h0 : 0 < h) (h1 : h ≤ 0.1) :
    0.49 * h ^ 2 ≤ 1 - Real.cos h ∧ 1 - Real.cos h ≤ h ^ 2 / 2 := by
  have hb := Real.cos_bound (x := h) (by rw [abs_of_pos h0]; linarith)
  rw [abs_of_pos h0, abs_le] at hb
  have hlo := Real.one_sub_sq_div_two_le_cos (x := h)
  have h2 : h ^ 2 ≤ 0.01 := by nlinarith
  have h4 : h ^ 4 = h ^ 2 * h ^ 2 := by ring
  constructor
  · nlinarith [hb.2, sq_nonneg h]
  · linarith

/-- C12: on the reals, with fuel for the 34 loop bodies, `derivativeAt sin π` returns a
value with a `nil` error, and that value is within `1e-5` of `-1 = cos π`. -/
theorem derivativeAt_sin_pi (fuel : Nat) (hfuel : 34 ≤ fuel) :
    (∃ v, derivativeAt Real.sin Real.pi fuel = some (v, none) ∧ |v - (-1)| < 0.00001) ∧
      Real.cos Real.pi = -1 := by
  have hq : ∀ n, quotAt Real.sin Real.pi n = -(Real.sin (stepAt n) / stepAt n) := by
    intro n
    simp only [quotAt]
    exact sin_pi_quot _
  have hdiff : ∀ m, prevQuotAt Real.sin Real.pi (m + 1) - quotAt Real.sin Real.pi (m + 1)
      = Real.sin (stepAt (m + 1)) / stepAt (m + 1)
          * (1 - Real.cos (stepAt (m + 1))) := by
    intro m
    simp only [prevQuotAt]
    rw [hq, hq, stepAt_eq_two_mul m, sin_quot_diff _ (stepAt_pos _)]
  refine ⟨?_, Real.cos_pi⟩
  suffices hsuff : ∃ v, derivativeAt Real.sin Real.pi fuel = some (v, none) ∧
      |v - (-1)| < 0.00001 ∧ derivative Real.sin fuel Real.pi = some v by
    obtain ⟨v, h1, h2, _⟩ := hsuff
    exact ⟨v, h1, h2⟩
  refine derivativeAt_converges_near Real.sin Real.pi (-1) 0.00001 fuel hfuel ?_ ?_
  · refine ⟨33, by decide, ?_⟩
    have h0 : (0 : ℝ) < stepAt 33 := stepAt_pos 33
    have h1 : (stepAt 33 : ℝ) < 0.00000000002 := by
      unfold stepAt; norm_num
    have hs := sin_div_bounds (stepAt 33) h0 (by linarith)
    have hc := one_sub_cos_bounds (stepAt 33) h0 (by linarith)
    have hcn : 0 ≤ 1 - Real.cos (stepAt 33) := le_trans (by positivity) hc.1
    have hsn : 0 ≤ Real.sin (stepAt 33) / stepAt 33 := le_trans (by nlinarith) hs.1.le
    rw [hdiff 32, abs_of_nonneg (mul_nonneg hsn hcn)]
    have hprod : Real.sin (stepAt 33) / stepAt 33 * (1 - Real.cos (stepAt 33))
        ≤ 1 * ((stepAt 33 : ℝ) ^ 2 / 2) :=
      mul_le_mul hs.2.le hc.2 hcn (by norm_num)
    nlinarith
  · intro n hn hconv
    rcases Nat.eq_zero_or_pos n with hn0 | hpos
    · subst hn0
      have hs := sin_div_bounds (stepAt 0) (stepAt_pos 0)
        ((stepAt_le_tenth 0).trans (by norm_num))
      have h01 : (stepAt 0 : ℝ) ^ 2 ≤ 0.01 := by
        rw [stepAt_zero]; norm_num
      simp only [prevQuotAt] at hconv
      rw [hq, zero_sub, neg_neg, abs_of_pos (lt_trans (by linarith) hs.1)] at hconv
      linarith [hs.1]
    · obtain ⟨m, rfl⟩ : ∃ m, n = m + 1 := ⟨n - 1, by omega⟩
      have h0 : (0 : ℝ) < stepAt (m + 1) := stepAt_pos _
      have h1 : (stepAt (m + 1) : ℝ) ≤ 0.1 := stepAt_le_tenth _
      have hs := sin_div_bounds (stepAt (m + 1)) h0 (by linarith)
      have hc := one_sub_cos_bounds (stepAt (m + 1)) h0 h1
      have h2 : (stepAt (m + 1) : ℝ) ^ 2 ≤ 0.01 := by nlinarith
      have hcn : 0 ≤ 1 - Real.cos (stepAt (m + 1)) := le_trans (by positivity) hc.1
      have hs99 : (0.99 : ℝ) ≤ Real.sin (stepAt (m + 1)) / stepAt (m + 1) := by
        linarith [hs.1]
      have hsn : 0 ≤ Real.sin (stepAt (m + 1)) / stepAt (m + 1) := by linarith
      rw [hdiff m, abs_of_nonneg (mul_nonneg hsn hcn)] at hconv
      have hprod : 0.99 * (0.49 * (stepAt (m + 1) : ℝ) ^ 2)
          ≤ Real.sin (stepAt (m + 1)) / stepAt (m + 1)
            * (1 - Real.cos (stepAt (m + 1))) :=
        mul_le_mul hs99 hc.1 (by positivity) hsn
      rw [hq, show -(Real.sin (stepAt (m + 1)) / stepAt (m + 1)) - (-1 : ℝ)
        = 1 - Real.sin (stepAt (m + 1)) / stepAt (m + 1) by ring,
        abs_of_pos (by linarith [hs.2])]
      linarith [hs.1]

/-- Witness for C12: fuel `34`. -/
theorem derivativeAt_sin_pi_witness :
    ∃ v, derivativeAt Real.sin Real.pi 34 = some (v, none) ∧ |v - (-1)| < 0.00001 :=
  (derivativeAt_sin_pi 34 (le_refl 34)).1

end Transcendental

/-! ## `rateOfChange` -/

section RateOfChange

variable {K : Type} [LinearOrderedField K]

/-- C1: for every function `f`, point `x` and step `h ≠ 0`, `rateOfChange f x h` returns the
value `(f (x + h) - f x) / h` together with the `nil` error. -/
theorem rateOfChange_of_ne_zero (f : K → K) (x h : K) (hh : h ≠ 0) :
    rateOfChange f x h = ((f (x + h) - f x) / h, none) := by
  simp [rateOfChange, hh]

/-- Witness for C1 on the rationals: `f t = t * t`, `x = 3`, `h = 1/2`. -/
theorem rateOfChange_of_ne_zero_witness :
    ((1 / 2 : ℚ) ≠ 0) ∧
      rateOfChange (fun t : ℚ => t * t) 3 (1 / 2)
        = (((fun t : ℚ => t * t) (3 + 1 / 2) - (fun t : ℚ => t * t) 3) / (1 / 2), none) :=
  ⟨by norm_num, rateOfChange_of_ne_zero (fun t : ℚ => t * t) 3 (1 / 2) (by norm_num)⟩

/-- C2: with step `0`, `rateOfChange` returns the invalid-step error, and the whole result
is the same for any two functions and any two points, so no value of `f` enters it. -/
theorem rateOfChange_zero (f g : K → K) (x y : K) :
    rateOfChange f x 0 = (0, some DiffError.invalidStep) ∧
      rateOfChange f x 0 = rateOfChange g y 0 := by
  simp [rateOfChange]

end RateOfChange

end Mathcode
